import Mathlib

/-!
Verification of the one-time pre-key store found in
src/olm/account/one_time_keys.rs.

Modelling choices (shallow embedding):

* `KeyId` is a newtype over `u64` in the source; it is modelled as `Nat`.
  The counter `key_id` is incremented once per generated key; reaching
  2^64 increments is impossible over a store's lifetime, so the wrap-around
  of `u64` arithmetic is not modelled.
* `Curve25519SecretKey` and `Curve25519PublicKey` wrap a `Nat` standing for
  the 32 key bytes.  `Curve25519PublicKey::from(&StaticSecret)` (X25519
  public-key derivation, which is injective on clamped secrets) is modelled
  by the injective function `curvePub`.
* `BTreeMap<K, V>` is modelled as an association list sorted by key in
  strictly ascending order; `btInsert` inserts at the sorted position
  (replacing an entry with an equal key), and `keys().next()` — the
  smallest key — is the key of the head entry (`btMinKey?`).
* `HashMap<K, V>` is modelled as an association list with pairwise distinct
  keys; `hmInsert` replaces the entry with an equal key in place, or
  appends when the key is absent.
* `rand::thread_rng` is an oracle: `generate` receives the list of secret
  keys that the rng produced, one per loop iteration, instead of a count.
-/

/-- Secret half of an X25519 key pair (`x25519_dalek::StaticSecret`). -/
structure Curve25519SecretKey where
  bytes : Nat
deriving DecidableEq

/-- Public half of an X25519 key pair. -/
structure Curve25519PublicKey where
  bytes : Nat
deriving DecidableEq

/-- Model of `Curve25519PublicKey::from(&secret)` : public-key derivation,
injective on (clamped) secrets. -/
def curvePub (k : Curve25519SecretKey) : Curve25519PublicKey :=
  ⟨k.bytes⟩

/-- Lookup in an association list: the value of the first entry whose key
matches.  Models both `BTreeMap::get` and `HashMap::get`. -/
def alFind? {κ β : Type} [DecidableEq κ] (l : List (κ × β)) (k : κ) : Option β :=
  match l with
  | [] => none
  | (k', v) :: t => if k' = k then some v else alFind? t k

/-- Removal from an association list: drops the first entry whose key
matches.  Models both `BTreeMap::remove` and `HashMap::remove` (the removed
value, when one is needed, is recovered with `alFind?`). -/
def alErase {κ β : Type} [DecidableEq κ] (l : List (κ × β)) (k : κ) : List (κ × β) :=
  match l with
  | [] => []
  | (k', v) :: t => if k' = k then t else (k', v) :: alErase t k

/-- Model of `BTreeMap::insert`: place the new entry at its sorted position,
replacing an entry carrying an equal key. -/
def btInsert {β : Type} (l : List (Nat × β)) (k : Nat) (v : β) : List (Nat × β) :=
  match l with
  | [] => [(k, v)]
  | (k', v') :: t =>
    if k < k' then (k, v) :: (k', v') :: t
    else if k = k' then (k, v) :: t
    else (k', v') :: btInsert t k v

/-- Model of `BTreeMap::keys().next()`: the first key in ascending order,
i.e. the smallest key of the map. -/
def btMinKey? {β : Type} (l : List (Nat × β)) : Option Nat :=
  l.head?.map Prod.fst

/-- Model of `HashMap::insert`: replace the entry carrying an equal key in
place, or append the new entry. -/
def hmInsert {κ β : Type} [DecidableEq κ] (l : List (κ × β)) (k : κ) (v : β) :
    List (κ × β) :=
  match l with
  | [] => [(k, v)]
  | (k', v') :: t => if k' = k then (k, v) :: t else (k', v') :: hmInsert t k v

/-- The `BTreeMap` representation invariant: keys strictly ascending. -/
def btSorted {β : Type} (l : List (Nat × β)) : Prop :=
  l.Pairwise (fun a b => a.1 < b.1)

/-- Keys of an association list are pairwise distinct (the `HashMap`
representation invariant, and a consequence of `btSorted`). -/
def alNodupKeys {κ β : Type} (l : List (κ × β)) : Prop :=
  (l.map Prod.fst).Nodup

instance {β : Type} (l : List (Nat × β)) : Decidable (btSorted l) :=
  inferInstanceAs (Decidable (l.Pairwise _))

instance {κ β : Type} [DecidableEq κ] (l : List (κ × β)) : Decidable (alNodupKeys l) :=
  inferInstanceAs (Decidable ((l.map Prod.fst).Nodup))

/-- Modelled from the spec: `PUBLIC_MAX_ONE_TIME_KEYS` is declared in the
parent `account` module, which is not among the sources under study.  The
spec only requires a fixed maximum capacity `C`, and its concrete scenario
in section 8 uses `C = 100`, so the value 1 is chosen, making
`MAX_ONE_TIME_KEYS = 100 * PUBLIC_MAX_ONE_TIME_KEYS = 100`. -/
def PUBLIC_MAX_ONE_TIME_KEYS : Nat := 1

/-- The in-memory one-time key store (`struct OneTimeKeys`). -/
structure OneTimeKeys where
  key_id : Nat
  unpublished_public_keys : List (Nat × Curve25519PublicKey)
  private_keys : List (Nat × Curve25519SecretKey)
  reverse_public_keys : List (Curve25519PublicKey × Nat)
deriving DecidableEq

namespace OneTimeKeys

/-- Maximum number of stored one-time keys. -/
def MAX_ONE_TIME_KEYS : Nat := 100 * PUBLIC_MAX_ONE_TIME_KEYS

/-- Model of `OneTimeKeys::new`. -/
def new : OneTimeKeys :=
  { key_id := 0
    unpublished_public_keys := []
    private_keys := []
    reverse_public_keys := [] }

/-- Model of `OneTimeKeys::mark_as_published`. -/
def mark_as_published (s : OneTimeKeys) : OneTimeKeys :=
  { s with unpublished_public_keys := [] }

/-- Model of `OneTimeKeys::get_secret_key` (lookup by public key). -/
def get_secret_key (s : OneTimeKeys) (public_key : Curve25519PublicKey) :
    Option Curve25519SecretKey :=
  (alFind? s.reverse_public_keys public_key).bind fun key_id =>
    alFind? s.private_keys key_id

/-- Model of `OneTimeKeys::remove_secret_key`.  Returns the removed secret
key (if any) together with the store after the call; in the source the
store is mutated in place and only the option is returned. -/
def remove_secret_key (s : OneTimeKeys) (public_key : Curve25519PublicKey) :
    Option Curve25519SecretKey × OneTimeKeys :=
  match alFind? s.reverse_public_keys public_key with
  | none => (none, s)
  | some key_id =>
    let s' : OneTimeKeys :=
      { s with
        reverse_public_keys := alErase s.reverse_public_keys public_key
        unpublished_public_keys := alErase s.unpublished_public_keys key_id }
    (alFind? s.private_keys key_id,
     { s' with private_keys := alErase s'.private_keys key_id })

/-- The leading capacity check of `OneTimeKeys::insert_secret_key`
(lines 79-88): when the store is full, evict the entry with the smallest
KeyId from `private_keys`, drop its public key from `reverse_public_keys`,
and drop it from `unpublished_public_keys`. -/
def evictIfFull (s : OneTimeKeys) : OneTimeKeys :=
  if MAX_ONE_TIME_KEYS ≤ s.private_keys.length then
    match btMinKey? s.private_keys with
    | some key_id =>
      let s' : OneTimeKeys :=
        match alFind? s.private_keys key_id with
        | some private_key =>
          { s with
            private_keys := alErase s.private_keys key_id
            reverse_public_keys :=
              alErase s.reverse_public_keys (curvePub private_key) }
        | none => s
      { s' with
        unpublished_public_keys := alErase s'.unpublished_public_keys key_id }
    | none => s
  else s

/-- Model of `OneTimeKeys::insert_secret_key`. -/
def insert_secret_key (s : OneTimeKeys) (key_id : Nat)
    (key : Curve25519SecretKey) (published : Bool) : OneTimeKeys :=
  let s₁ := evictIfFull s
  let public_key := curvePub key
  let s₂ : OneTimeKeys :=
    { s₁ with
      private_keys := btInsert s₁.private_keys key_id key
      reverse_public_keys := hmInsert s₁.reverse_public_keys public_key key_id }
  if !published then
    { s₂ with
      unpublished_public_keys :=
        btInsert s₂.unpublished_public_keys key_id public_key }
  else s₂

/-- One iteration of the loop in `OneTimeKeys::generate`: insert a freshly
sampled secret key under the current `key_id`, then increment `key_id`. -/
def genStep (s : OneTimeKeys) (key : Curve25519SecretKey) : OneTimeKeys :=
  let s' := insert_secret_key s s.key_id key false
  { s' with key_id := s'.key_id + 1 }

/-- Model of `OneTimeKeys::generate`.  The source draws `count` secret keys
from `thread_rng`; here the rng is an oracle and the sampled keys are the
list `fresh` (so `count = fresh.length`). -/
def generate (s : OneTimeKeys) (fresh : List Curve25519SecretKey) : OneTimeKeys :=
  fresh.foldl genStep s

end OneTimeKeys

/-- Model of `struct OneTimeKeysPickle`, the serialized snapshot. -/
structure OneTimeKeysPickle where
  key_id : Nat
  public_keys : List (Nat × Curve25519PublicKey)
  private_keys : List (Nat × Curve25519SecretKey)
deriving DecidableEq

/-- Model of `impl From<OneTimeKeys> for OneTimeKeysPickle` (snapshot
encoding): only the unpublished public keys are carried. -/
def OneTimeKeys.toPickle (keys : OneTimeKeys) : OneTimeKeysPickle :=
  { key_id := keys.key_id
    public_keys := keys.unpublished_public_keys
    private_keys := keys.private_keys }

/-- Model of `impl From<OneTimeKeysPickle> for OneTimeKeys` (snapshot
decoding): the reverse index is rebuilt by iterating over the snapshot's
public-key entries in ascending key order, inserting `(public → id)`. -/
def OneTimeKeysPickle.toKeys (pickle : OneTimeKeysPickle) : OneTimeKeys :=
  { key_id := pickle.key_id
    unpublished_public_keys := pickle.public_keys
    private_keys := pickle.private_keys
    reverse_public_keys :=
      pickle.public_keys.foldl (fun m kv => hmInsert m kv.2 kv.1) [] }

/-- Freshness of an rng sample: the sampled secret keys have pairwise
distinct public keys, none of which is already resolvable in the store.
This is the standard cryptographic assumption that independently sampled
Curve25519 keys do not collide. -/
def FreshKeys (s : OneTimeKeys) (fresh : List Curve25519SecretKey) : Prop :=
  (fresh.map curvePub).Nodup ∧
  ∀ k ∈ fresh, alFind? s.reverse_public_keys (curvePub k) = none

instance (s : OneTimeKeys) (fresh : List Curve25519SecretKey) :
    Decidable (FreshKeys s fresh) :=
  inferInstanceAs (Decidable (_ ∧ _))

/-- States reachable from the empty store by the mutating core operations
(`generate` with fresh randomness, `mark_as_published`, `remove_secret_key`)
and by the read-only `get_secret_key`. -/
inductive ReachableCore : OneTimeKeys → Prop
  | new : ReachableCore OneTimeKeys.new
  | generate {s : OneTimeKeys} (fresh : List Curve25519SecretKey) :
      ReachableCore s → FreshKeys s fresh →
      ReachableCore (OneTimeKeys.generate s fresh)
  | mark_as_published {s : OneTimeKeys} :
      ReachableCore s → ReachableCore (OneTimeKeys.mark_as_published s)
  | remove_secret_key {s : OneTimeKeys} (p : Curve25519PublicKey) :
      ReachableCore s → ReachableCore (OneTimeKeys.remove_secret_key s p).2
  | get_secret_key {s : OneTimeKeys} (p : Curve25519PublicKey) :
      ReachableCore s → ReachableCore s

/-- States reachable from the empty store by the core operations and by
snapshot encode/decode round-trips — the operation set named by the
index-consistency claim. -/
inductive ReachableFull : OneTimeKeys → Prop
  | new : ReachableFull OneTimeKeys.new
  | generate {s : OneTimeKeys} (fresh : List Curve25519SecretKey) :
      ReachableFull s → FreshKeys s fresh →
      ReachableFull (OneTimeKeys.generate s fresh)
  | mark_as_published {s : OneTimeKeys} :
      ReachableFull s → ReachableFull (OneTimeKeys.mark_as_published s)
  | remove_secret_key {s : OneTimeKeys} (p : Curve25519PublicKey) :
      ReachableFull s → ReachableFull (OneTimeKeys.remove_secret_key s p).2
  | get_secret_key {s : OneTimeKeys} (p : Curve25519PublicKey) :
      ReachableFull s → ReachableFull s
  | pickle {s : OneTimeKeys} :
      ReachableFull s → ReachableFull (OneTimeKeys.toPickle s).toKeys

/-- The index-consistency property: every private-key entry is found by the
reverse index, and the reverse index is exactly as large as the private-key
map. -/
def Consistent (s : OneTimeKeys) : Prop :=
  (∀ kv ∈ s.private_keys,
      alFind? s.reverse_public_keys (curvePub kv.2) = some kv.1) ∧
  s.reverse_public_keys.length = s.private_keys.length

instance (s : OneTimeKeys) : Decidable (Consistent s) :=
  inferInstanceAs (Decidable (_ ∧ _))

/-- The full well-formedness invariant of a store, maintained by every core
operation: the two ordered maps are sorted, the reverse index has distinct
keys, the reverse index agrees with `private_keys` in both directions,
every unpublished entry carries the public key of a held private key, and
every held KeyId is below the `key_id` counter. -/
def WF (s : OneTimeKeys) : Prop :=
  btSorted s.private_keys ∧
  btSorted s.unpublished_public_keys ∧
  alNodupKeys s.reverse_public_keys ∧
  (∀ kv ∈ s.private_keys,
      alFind? s.reverse_public_keys (curvePub kv.2) = some kv.1) ∧
  (∀ pv ∈ s.reverse_public_keys,
      (alFind? s.private_keys pv.2).map curvePub = some pv.1) ∧
  (∀ kv ∈ s.unpublished_public_keys,
      (alFind? s.private_keys kv.1).map curvePub = some kv.2) ∧
  (∀ kv ∈ s.private_keys, kv.1 < s.key_id)

instance (s : OneTimeKeys) : Decidable (WF s) :=
  inferInstanceAs (Decidable (_ ∧ _))

/-! ### Association-list lemmas -/

section ListLemmas

variable {κ β : Type} [DecidableEq κ]

theorem alFind?_eq_none_iff {l : List (κ × β)} {k : κ} :
    alFind? l k = none ↔ ∀ kv ∈ l, kv.1 ≠ k := by
  induction l with
  | nil => simp [alFind?]
  | cons hd t ih =>
    obtain ⟨k', v⟩ := hd
    by_cases h : k' = k
    · subst h
      simp [alFind?]
    · simp [alFind?, h, ih]

theorem alFind?_some_mem {l : List (κ × β)} {k : κ} {v : β}
    (h : alFind? l k = some v) : (k, v) ∈ l := by
  induction l with
  | nil => simp [alFind?] at h
  | cons hd t ih =>
    obtain ⟨k', v'⟩ := hd
    by_cases hk : k' = k
    · subst hk
      simp [alFind?] at h
      subst h
      exact List.mem_cons_self _ _
    · simp [alFind?, hk] at h
      exact List.mem_cons_of_mem _ (ih h)

theorem alFind?_of_mem {l : List (κ × β)} {k : κ} {v : β}
    (hnd : alNodupKeys l) (hm : (k, v) ∈ l) : alFind? l k = some v := by
  induction l with
  | nil => simp at hm
  | cons hd t ih =>
    obtain ⟨k', v'⟩ := hd
    unfold alNodupKeys at hnd
    simp only [List.map_cons, List.nodup_cons] at hnd
    rcases List.mem_cons.mp hm with heq | hmt
    · injection heq with h1 h2
      subst h1
      subst h2
      simp [alFind?]
    · have hne : k' ≠ k := by
        intro hkk
        subst hkk
        exact hnd.1 (List.mem_map.mpr ⟨(k', v), hmt, rfl⟩)
      simp [alFind?, hne]
      exact ih hnd.2 hmt

theorem mem_alErase_subset {l : List (κ × β)} {k : κ} {x : κ × β}
    (h : x ∈ alErase l k) : x ∈ l := by
  induction l with
  | nil => simp [alErase] at h
  | cons hd t ih =>
    obtain ⟨k', v'⟩ := hd
    by_cases hk : k' = k
    · simp only [alErase, if_pos hk] at h
      exact List.mem_cons_of_mem _ h
    · simp only [alErase, if_neg hk] at h
      rcases List.mem_cons.mp h with heq | hmt
      · exact heq ▸ List.mem_cons_self _ _
      · exact List.mem_cons_of_mem _ (ih hmt)

theorem mem_alErase_of_ne {l : List (κ × β)} {k : κ} {x : κ × β}
    (hm : x ∈ l) (hne : x.1 ≠ k) : x ∈ alErase l k := by
  induction l with
  | nil => simp at hm
  | cons hd t ih =>
    obtain ⟨k', v'⟩ := hd
    by_cases hk : k' = k
    · simp only [alErase, if_pos hk]
      rcases List.mem_cons.mp hm with heq | hmt
      · exact absurd (hk ▸ congrArg Prod.fst heq) hne
      · exact hmt
    · simp only [alErase, if_neg hk]
      rcases List.mem_cons.mp hm with heq | hmt
      · exact heq ▸ List.mem_cons_self _ _
      · exact List.mem_cons_of_mem _ (ih hmt)

theorem alErase_sublist (l : List (κ × β)) (k : κ) :
    List.Sublist (alErase l k) l := by
  induction l with
  | nil => simp [alErase]
  | cons hd t ih =>
    obtain ⟨k', v'⟩ := hd
    by_cases hk : k' = k
    · rw [alErase, if_pos hk]
      exact List.sublist_cons_self _ _
    · rw [alErase, if_neg hk]
      exact ih.cons₂ _

theorem alNodupKeys_alErase {l : List (κ × β)} {k : κ}
    (h : alNodupKeys l) : alNodupKeys (alErase l k) :=
  List.Nodup.sublist (List.Sublist.map Prod.fst (alErase_sublist l k)) h

theorem alFind?_alErase_self {l : List (κ × β)} {k : κ}
    (hnd : alNodupKeys l) : alFind? (alErase l k) k = none := by
  induction l with
  | nil => simp [alErase, alFind?]
  | cons hd t ih =>
    obtain ⟨k', v'⟩ := hd
    unfold alNodupKeys at hnd
    simp only [List.map_cons, List.nodup_cons] at hnd
    by_cases hk : k' = k
    · subst hk
      simp only [alErase, if_pos rfl]
      exact alFind?_eq_none_iff.mpr fun kv hkv hkk =>
        hnd.1 (List.mem_map.mpr ⟨kv, hkv, hkk⟩)
    · simp only [alErase, if_neg hk, alFind?, if_neg hk]
      exact ih hnd.2

theorem alFind?_alErase_ne {l : List (κ × β)} {k k' : κ}
    (hne : k' ≠ k) : alFind? (alErase l k) k' = alFind? l k' := by
  induction l with
  | nil => simp [alErase]
  | cons hd t ih =>
    obtain ⟨k₀, v₀⟩ := hd
    by_cases hk : k₀ = k
    · subst hk
      rw [alErase, if_pos rfl, alFind?, if_neg (Ne.symm hne)]
    · rw [alErase, if_neg hk]
      by_cases hk' : k₀ = k'
      · rw [alFind?, if_pos hk', alFind?, if_pos hk']
      · rw [alFind?, if_neg hk', alFind?, if_neg hk', ih]

theorem alFind?_alErase_none {l : List (κ × β)} {k k' : κ}
    (h : alFind? l k' = none) : alFind? (alErase l k) k' = none :=
  alFind?_eq_none_iff.mpr fun kv hkv =>
    alFind?_eq_none_iff.mp h kv (mem_alErase_subset hkv)

theorem mem_alErase_ne_key {l : List (κ × β)} {k : κ} {x : κ × β}
    (hnd : alNodupKeys l) (h : x ∈ alErase l k) : x.1 ≠ k := by
  induction l with
  | nil => simp [alErase] at h
  | cons hd t ih =>
    obtain ⟨k', v'⟩ := hd
    unfold alNodupKeys at hnd
    simp only [List.map_cons, List.nodup_cons] at hnd
    by_cases hk : k' = k
    · subst hk
      simp only [alErase, if_pos rfl] at h
      exact fun hxk => hnd.1 (List.mem_map.mpr ⟨x, h, hxk⟩)
    · simp only [alErase, if_neg hk] at h
      rcases List.mem_cons.mp h with heq | hmt
      · subst heq
        exact hk
      · exact ih hnd.2 hmt

theorem length_alErase_of_mem {l : List (κ × β)} {k : κ}
    (h : k ∈ l.map Prod.fst) : (alErase l k).length + 1 = l.length := by
  induction l with
  | nil => simp at h
  | cons hd t ih =>
    obtain ⟨k', v'⟩ := hd
    by_cases hk : k' = k
    · simp [alErase, if_pos hk]
    · have hmt : k ∈ t.map Prod.fst := by
        rcases List.mem_map.mp h with ⟨kv, hkv, hfst⟩
        rcases List.mem_cons.mp hkv with heq | hmem
        · subst heq
          exact absurd hfst hk
        · exact List.mem_map.mpr ⟨kv, hmem, hfst⟩
      simp only [alErase, if_neg hk, List.length_cons, ih hmt]

end ListLemmas

section InsertLemmas

variable {κ β : Type} [DecidableEq κ]

theorem alFind?_btInsert_self {β : Type} (l : List (Nat × β)) (k : Nat) (v : β) :
    alFind? (btInsert l k v) k = some v := by
  induction l with
  | nil => simp [btInsert, alFind?]
  | cons hd t ih =>
    obtain ⟨k', v'⟩ := hd
    rcases Nat.lt_trichotomy k k' with hlt | heq | hgt
    · rw [btInsert, if_pos hlt, alFind?, if_pos rfl]
    · have h1 : ¬ k < k' := by omega
      rw [btInsert, if_neg h1, if_pos heq, alFind?, if_pos rfl]
    · have h1 : ¬ k < k' := by omega
      have h2 : k ≠ k' := by omega
      have h3 : k' ≠ k := by omega
      rw [btInsert, if_neg h1, if_neg h2, alFind?, if_neg h3, ih]

theorem alFind?_btInsert_ne {β : Type} {l : List (Nat × β)} {k k' : Nat}
    (v : β) (hne : k' ≠ k) : alFind? (btInsert l k v) k' = alFind? l k' := by
  induction l with
  | nil => simp [btInsert, alFind?, Ne.symm hne]
  | cons hd t ih =>
    obtain ⟨k₀, v₀⟩ := hd
    rcases Nat.lt_trichotomy k k₀ with hlt | heq | hgt
    · rw [btInsert, if_pos hlt, alFind?, if_neg (Ne.symm hne)]
    · subst heq
      have h1 : ¬ k < k := by omega
      rw [btInsert, if_neg h1, if_pos rfl, alFind?,
        if_neg (Ne.symm hne), alFind?, if_neg (Ne.symm hne)]
    · have h1 : ¬ k < k₀ := by omega
      have h2 : k ≠ k₀ := by omega
      rw [btInsert, if_neg h1, if_neg h2]
      by_cases h0 : k₀ = k'
      · rw [alFind?, if_pos h0, alFind?, if_pos h0]
      · rw [alFind?, if_neg h0, alFind?, if_neg h0, ih]

theorem mem_btInsert_elim {β : Type} {l : List (Nat × β)} {k : Nat} {v : β}
    {x : Nat × β} (h : x ∈ btInsert l k v) : x = (k, v) ∨ x ∈ l := by
  induction l with
  | nil =>
    simp [btInsert] at h
    exact Or.inl h
  | cons hd t ih =>
    obtain ⟨k₀, v₀⟩ := hd
    rcases Nat.lt_trichotomy k k₀ with hlt | heq | hgt
    · rw [btInsert, if_pos hlt] at h
      rcases List.mem_cons.mp h with heq' | h'
      · exact Or.inl heq'
      · exact Or.inr h'
    · have h1 : ¬ k < k₀ := by omega
      rw [btInsert, if_neg h1, if_pos heq] at h
      rcases List.mem_cons.mp h with heq' | h'
      · exact Or.inl heq'
      · exact Or.inr (List.mem_cons_of_mem _ h')
    · have h1 : ¬ k < k₀ := by omega
      have h2 : k ≠ k₀ := by omega
      rw [btInsert, if_neg h1, if_neg h2] at h
      rcases List.mem_cons.mp h with heq' | h'
      · exact Or.inr (heq' ▸ List.mem_cons_self _ _)
      · rcases ih h' with hl | hr
        · exact Or.inl hl
        · exact Or.inr (List.mem_cons_of_mem _ hr)

theorem mem_btInsert_self {β : Type} (l : List (Nat × β)) (k : Nat) (v : β) :
    (k, v) ∈ btInsert l k v :=
  alFind?_some_mem (alFind?_btInsert_self l k v)

theorem mem_btInsert_of_ne {β : Type} {l : List (Nat × β)} {k : Nat} {v : β}
    {x : Nat × β} (hm : x ∈ l) (hne : x.1 ≠ k) : x ∈ btInsert l k v := by
  induction l with
  | nil => simp at hm
  | cons hd t ih =>
    obtain ⟨k₀, v₀⟩ := hd
    rcases Nat.lt_trichotomy k k₀ with hlt | heq | hgt
    · rw [btInsert, if_pos hlt]
      exact List.mem_cons_of_mem _ hm
    · subst heq
      have h1 : ¬ k < k := by omega
      rw [btInsert, if_neg h1, if_pos rfl]
      rcases List.mem_cons.mp hm with heq' | h'
      · subst heq'
        exact absurd rfl hne
      · exact List.mem_cons_of_mem _ h'
    · have h1 : ¬ k < k₀ := by omega
      have h2 : k ≠ k₀ := by omega
      rw [btInsert, if_neg h1, if_neg h2]
      rcases List.mem_cons.mp hm with heq' | h'
      · exact heq' ▸ List.mem_cons_self _ _
      · exact List.mem_cons_of_mem _ (ih h')

theorem length_btInsert_le {β : Type} (l : List (Nat × β)) (k : Nat) (v : β) :
    (btInsert l k v).length ≤ l.length + 1 := by
  induction l with
  | nil => simp [btInsert]
  | cons hd t ih =>
    obtain ⟨k₀, v₀⟩ := hd
    rcases Nat.lt_trichotomy k k₀ with hlt | heq | hgt
    · rw [btInsert, if_pos hlt]
      simp
    · have h1 : ¬ k < k₀ := by omega
      rw [btInsert, if_neg h1, if_pos heq]
      simp
    · have h1 : ¬ k < k₀ := by omega
      have h2 : k ≠ k₀ := by omega
      rw [btInsert, if_neg h1, if_neg h2]
      simpa using ih

theorem btInsert_append_last {β : Type} {l : List (Nat × β)} {k : Nat}
    (v : β) (h : ∀ kv ∈ l, kv.1 < k) : btInsert l k v = l ++ [(k, v)] := by
  induction l with
  | nil => simp [btInsert]
  | cons hd t ih =>
    obtain ⟨k₀, v₀⟩ := hd
    have hk₀ : k₀ < k := h (k₀, v₀) (List.mem_cons_self _ _)
    have h1 : ¬ k < k₀ := by omega
    have h2 : k ≠ k₀ := by omega
    rw [btInsert, if_neg h1, if_neg h2, List.cons_append,
      ih fun kv hkv => h kv (List.mem_cons_of_mem _ hkv)]

theorem btSorted_btInsert {β : Type} {l : List (Nat × β)} {k : Nat} (v : β)
    (h : btSorted l) : btSorted (btInsert l k v) := by
  induction l with
  | nil => simp [btInsert, btSorted]
  | cons hd t ih =>
    obtain ⟨k₀, v₀⟩ := hd
    unfold btSorted at h
    rw [List.pairwise_cons] at h
    rcases Nat.lt_trichotomy k k₀ with hlt | heq | hgt
    · rw [btInsert, if_pos hlt]
      unfold btSorted
      rw [List.pairwise_cons]
      refine ⟨fun kv hkv => ?_, List.pairwise_cons.mpr h⟩
      rcases List.mem_cons.mp hkv with heq' | h'
      · subst heq'
        exact hlt
      · exact Nat.lt_trans hlt (h.1 kv h')
    · subst heq
      have h1 : ¬ k < k := by omega
      rw [btInsert, if_neg h1, if_pos rfl]
      unfold btSorted
      rw [List.pairwise_cons]
      exact ⟨h.1, h.2⟩
    · have h1 : ¬ k < k₀ := by omega
      have h2 : k ≠ k₀ := by omega
      rw [btInsert, if_neg h1, if_neg h2]
      unfold btSorted
      rw [List.pairwise_cons]
      refine ⟨fun kv hkv => ?_, ih h.2⟩
      rcases mem_btInsert_elim hkv with heq' | h'
      · subst heq'
        exact hgt
      · exact h.1 kv h'

theorem alFind?_hmInsert_self (l : List (κ × β)) (k : κ) (v : β) :
    alFind? (hmInsert l k v) k = some v := by
  induction l with
  | nil => simp [hmInsert, alFind?]
  | cons hd t ih =>
    obtain ⟨k₀, v₀⟩ := hd
    by_cases hk : k₀ = k
    · rw [hmInsert, if_pos hk, alFind?, if_pos rfl]
    · rw [hmInsert, if_neg hk, alFind?, if_neg hk, ih]

theorem alFind?_hmInsert_ne {l : List (κ × β)} {k k' : κ} (v : β)
    (hne : k' ≠ k) : alFind? (hmInsert l k v) k' = alFind? l k' := by
  induction l with
  | nil => simp [hmInsert, alFind?, Ne.symm hne]
  | cons hd t ih =>
    obtain ⟨k₀, v₀⟩ := hd
    by_cases hk : k₀ = k
    · subst hk
      rw [hmInsert, if_pos rfl, alFind?, if_neg (Ne.symm hne), alFind?,
        if_neg (Ne.symm hne)]
    · rw [hmInsert, if_neg hk]
      by_cases h0 : k₀ = k'
      · rw [alFind?, if_pos h0, alFind?, if_pos h0]
      · rw [alFind?, if_neg h0, alFind?, if_neg h0, ih]

theorem mem_hmInsert_elim {l : List (κ × β)} {k : κ} {v : β} {x : κ × β}
    (h : x ∈ hmInsert l k v) : x = (k, v) ∨ x ∈ l := by
  induction l with
  | nil =>
    simp [hmInsert] at h
    exact Or.inl h
  | cons hd t ih =>
    obtain ⟨k₀, v₀⟩ := hd
    by_cases hk : k₀ = k
    · rw [hmInsert, if_pos hk] at h
      rcases List.mem_cons.mp h with heq' | h'
      · exact Or.inl heq'
      · exact Or.inr (List.mem_cons_of_mem _ h')
    · rw [hmInsert, if_neg hk] at h
      rcases List.mem_cons.mp h with heq' | h'
      · exact Or.inr (heq' ▸ List.mem_cons_self _ _)
      · rcases ih h' with hl | hr
        · exact Or.inl hl
        · exact Or.inr (List.mem_cons_of_mem _ hr)

theorem alNodupKeys_hmInsert {l : List (κ × β)} {k : κ} (v : β)
    (h : alNodupKeys l) : alNodupKeys (hmInsert l k v) := by
  induction l with
  | nil => simp [hmInsert, alNodupKeys]
  | cons hd t ih =>
    obtain ⟨k₀, v₀⟩ := hd
    unfold alNodupKeys at h ⊢
    simp only [List.map_cons, List.nodup_cons] at h
    by_cases hk : k₀ = k
    · subst hk
      rw [hmInsert, if_pos rfl]
      simp only [List.map_cons, List.nodup_cons]
      exact h
    · rw [hmInsert, if_neg hk]
      simp only [List.map_cons, List.nodup_cons]
      refine ⟨fun hmem => ?_, ih h.2⟩
      rcases List.mem_map.mp hmem with ⟨kv, hkv, hfst⟩
      rcases mem_hmInsert_elim hkv with heq' | h'
      · subst heq'
        exact hk hfst.symm
      · exact h.1 (List.mem_map.mpr ⟨kv, h', hfst⟩)

end InsertLemmas

section SortedLemmas

variable {β : Type}

theorem btSorted.nodupKeys {l : List (Nat × β)} (h : btSorted l) :
    alNodupKeys l := by
  induction l with
  | nil => simp [alNodupKeys]
  | cons hd t ih =>
    unfold btSorted at h
    rw [List.pairwise_cons] at h
    unfold alNodupKeys
    simp only [List.map_cons, List.nodup_cons]
    refine ⟨fun hmem => ?_, ih h.2⟩
    rcases List.mem_map.mp hmem with ⟨kv, hkv, hfst⟩
    have hlt := h.1 kv hkv
    omega

theorem btSorted_of_sublist {l₁ l₂ : List (Nat × β)}
    (hsub : List.Sublist l₁ l₂) (h : btSorted l₂) : btSorted l₁ :=
  List.Pairwise.sublist hsub h

theorem btSorted_minKey {l : List (Nat × β)} {m : Nat}
    (h : btSorted l) (hm : btMinKey? l = some m) : ∀ kv ∈ l, m ≤ kv.1 := by
  match l with
  | [] => simp [btMinKey?] at hm
  | hd :: t =>
    have hm' : hd.1 = m := by simpa [btMinKey?] using hm
    unfold btSorted at h
    rw [List.pairwise_cons] at h
    intro kv hkv
    rcases List.mem_cons.mp hkv with heq | h'
    · subst heq
      omega
    · have := h.1 kv h'
      omega

end SortedLemmas

/-! ### Characterization of the store operations -/

namespace OneTimeKeys

theorem MAX_pos : 0 < MAX_ONE_TIME_KEYS := by decide

theorem evictIfFull_eq_of_lt {s : OneTimeKeys}
    (h : s.private_keys.length < MAX_ONE_TIME_KEYS) : evictIfFull s = s := by
  unfold evictIfFull
  have hc : ¬ MAX_ONE_TIME_KEYS ≤ s.private_keys.length := by omega
  rw [if_neg hc]

theorem evictIfFull_eq_of_full {s : OneTimeKeys} {hd : Nat × Curve25519SecretKey}
    {t : List (Nat × Curve25519SecretKey)}
    (hl : s.private_keys = hd :: t)
    (h : MAX_ONE_TIME_KEYS ≤ s.private_keys.length) :
    evictIfFull s =
      { s with
        private_keys := t
        reverse_public_keys := alErase s.reverse_public_keys (curvePub hd.2)
        unpublished_public_keys := alErase s.unpublished_public_keys hd.1 } := by
  obtain ⟨k₀, v₀⟩ := hd
  unfold evictIfFull
  rw [if_pos h, hl]
  simp [btMinKey?, alFind?, alErase]

theorem evictIfFull_key_id (s : OneTimeKeys) :
    (evictIfFull s).key_id = s.key_id := by
  rcases Nat.lt_or_ge s.private_keys.length MAX_ONE_TIME_KEYS with hlt | hge
  · rw [evictIfFull_eq_of_lt hlt]
  · match hl : s.private_keys with
    | [] =>
      rw [hl] at hge
      have hpos := MAX_pos
      simp at hge
      omega
    | hd :: t => rw [evictIfFull_eq_of_full hl hge]

theorem insert_secret_key_private (s : OneTimeKeys) (id : Nat)
    (key : Curve25519SecretKey) (published : Bool) :
    (insert_secret_key s id key published).private_keys =
      btInsert (evictIfFull s).private_keys id key := by
  unfold insert_secret_key
  cases published <;> rfl

theorem insert_secret_key_reverse (s : OneTimeKeys) (id : Nat)
    (key : Curve25519SecretKey) (published : Bool) :
    (insert_secret_key s id key published).reverse_public_keys =
      hmInsert (evictIfFull s).reverse_public_keys (curvePub key) id := by
  unfold insert_secret_key
  cases published <;> rfl

theorem insert_secret_key_unpub_false (s : OneTimeKeys) (id : Nat)
    (key : Curve25519SecretKey) :
    (insert_secret_key s id key false).unpublished_public_keys =
      btInsert (evictIfFull s).unpublished_public_keys id (curvePub key) := rfl

theorem insert_secret_key_key_id (s : OneTimeKeys) (id : Nat)
    (key : Curve25519SecretKey) (published : Bool) :
    (insert_secret_key s id key published).key_id = s.key_id := by
  unfold insert_secret_key
  cases published
  · show (evictIfFull s).key_id = s.key_id
    exact evictIfFull_key_id s
  · show (evictIfFull s).key_id = s.key_id
    exact evictIfFull_key_id s

theorem genStep_key_id (s : OneTimeKeys) (key : Curve25519SecretKey) :
    (genStep s key).key_id = s.key_id + 1 := by
  show (insert_secret_key s s.key_id key false).key_id + 1 = s.key_id + 1
  rw [insert_secret_key_key_id]

theorem genStep_private (s : OneTimeKeys) (key : Curve25519SecretKey) :
    (genStep s key).private_keys =
      btInsert (evictIfFull s).private_keys s.key_id key := by
  show (insert_secret_key s s.key_id key false).private_keys = _
  rw [insert_secret_key_private]

theorem genStep_reverse (s : OneTimeKeys) (key : Curve25519SecretKey) :
    (genStep s key).reverse_public_keys =
      hmInsert (evictIfFull s).reverse_public_keys (curvePub key) s.key_id := by
  show (insert_secret_key s s.key_id key false).reverse_public_keys = _
  rw [insert_secret_key_reverse]

theorem genStep_unpub (s : OneTimeKeys) (key : Curve25519SecretKey) :
    (genStep s key).unpublished_public_keys =
      btInsert (evictIfFull s).unpublished_public_keys s.key_id (curvePub key) := by
  show (insert_secret_key s s.key_id key false).unpublished_public_keys = _
  rw [insert_secret_key_unpub_false]

theorem generate_cons (s : OneTimeKeys) (k : Curve25519SecretKey)
    (rest : List Curve25519SecretKey) :
    generate s (k :: rest) = generate (genStep s k) rest := rfl

theorem generate_nil (s : OneTimeKeys) : generate s [] = s := rfl

theorem generate_key_id (s : OneTimeKeys) (fresh : List Curve25519SecretKey) :
    (generate s fresh).key_id = s.key_id + fresh.length := by
  induction fresh generalizing s with
  | nil => rfl
  | cons k rest ih =>
    rw [generate_cons, ih, genStep_key_id, List.length_cons]
    omega

end OneTimeKeys

/-! ### Length bound lemmas (capacity) -/

namespace OneTimeKeys

theorem insert_secret_key_length_le {s : OneTimeKeys} {id : Nat}
    {key : Curve25519SecretKey} {published : Bool}
    (h : s.private_keys.length ≤ MAX_ONE_TIME_KEYS) :
    (insert_secret_key s id key published).private_keys.length ≤
      MAX_ONE_TIME_KEYS := by
  rw [insert_secret_key_private]
  have hb := length_btInsert_le (evictIfFull s).private_keys id key
  rcases Nat.lt_or_ge s.private_keys.length MAX_ONE_TIME_KEYS with hlt | hge
  · rw [evictIfFull_eq_of_lt hlt] at hb ⊢
    omega
  · match hl : s.private_keys with
    | [] =>
      rw [hl] at hge
      have hpos := MAX_pos
      simp at hge
      omega
    | hd :: t =>
      rw [evictIfFull_eq_of_full hl hge] at hb ⊢
      dsimp only at hb ⊢
      rw [hl] at h
      simp only [List.length_cons] at h
      omega

theorem genStep_length_le {s : OneTimeKeys} {key : Curve25519SecretKey}
    (h : s.private_keys.length ≤ MAX_ONE_TIME_KEYS) :
    (genStep s key).private_keys.length ≤ MAX_ONE_TIME_KEYS := by
  show (insert_secret_key s s.key_id key false).private_keys.length ≤ _
  exact insert_secret_key_length_le h

theorem generate_length_le {s : OneTimeKeys} {fresh : List Curve25519SecretKey}
    (h : s.private_keys.length ≤ MAX_ONE_TIME_KEYS) :
    (generate s fresh).private_keys.length ≤ MAX_ONE_TIME_KEYS := by
  induction fresh generalizing s with
  | nil => exact h
  | cons k rest ih =>
    rw [generate_cons]
    exact ih (genStep_length_le h)

theorem foldl_generate_length_le {s : OneTimeKeys}
    {batches : List (List Curve25519SecretKey)}
    (h : s.private_keys.length ≤ MAX_ONE_TIME_KEYS) :
    (batches.foldl generate s).private_keys.length ≤ MAX_ONE_TIME_KEYS := by
  induction batches generalizing s with
  | nil => exact h
  | cons b rest ih =>
    rw [List.foldl_cons]
    exact ih (generate_length_le h)

end OneTimeKeys

/-! ### Claim theorems: C3, C6, C7, C10 -/

/-- C3 (capacity bound): for every sequence of `generate` calls (modelled as
a list of rng-sample batches) starting from any state holding at most
`MAX_ONE_TIME_KEYS` private keys, after every call — i.e. after every
`take i` of the batch list has been folded over the store — `private_keys`
holds at most `MAX_ONE_TIME_KEYS` entries. -/
theorem c3_capacity_bound (s : OneTimeKeys)
    (batches : List (List Curve25519SecretKey)) (i : Nat)
    (h : s.private_keys.length ≤ OneTimeKeys.MAX_ONE_TIME_KEYS) :
    ((batches.take i).foldl OneTimeKeys.generate s).private_keys.length ≤
      OneTimeKeys.MAX_ONE_TIME_KEYS :=
  OneTimeKeys.foldl_generate_length_le h

/-- Witness for C3 at a concrete input: the empty store, one batch of three
keys, observed after the first call. -/
theorem c3_capacity_bound_witness :
    OneTimeKeys.new.private_keys.length ≤ OneTimeKeys.MAX_ONE_TIME_KEYS ∧
    (([[⟨1⟩, ⟨2⟩, ⟨3⟩]].take 1).foldl OneTimeKeys.generate
        OneTimeKeys.new).private_keys.length ≤
      OneTimeKeys.MAX_ONE_TIME_KEYS :=
  ⟨by decide, c3_capacity_bound OneTimeKeys.new [[⟨1⟩, ⟨2⟩, ⟨3⟩]] 1 (by decide)⟩

/-- C6 (one-shot consumption): if the public key `p` is resolvable in the
store — the reverse index maps `p` to `id` and `private_keys` holds `priv`
at `id` — then `take_secret(p)` returns `priv`, afterwards `p` is gone from
the reverse index and `id` is gone from `private_keys` and
`unpublished_public_keys`, and an immediately following `take_secret(p)`
returns nothing and leaves the store unchanged.  The `alNodupKeys`
hypotheses are the representation invariants of the three Rust maps. -/
theorem c6_one_shot_consumption (s : OneTimeKeys) (p : Curve25519PublicKey)
    (id : Nat) (priv : Curve25519SecretKey)
    (hrev : alNodupKeys s.reverse_public_keys)
    (hpriv : alNodupKeys s.private_keys)
    (hunpub : alNodupKeys s.unpublished_public_keys)
    (hfind : alFind? s.reverse_public_keys p = some id)
    (hkey : alFind? s.private_keys id = some priv) :
    (OneTimeKeys.remove_secret_key s p).1 = some priv ∧
    alFind? (OneTimeKeys.remove_secret_key s p).2.reverse_public_keys p =
      none ∧
    alFind? (OneTimeKeys.remove_secret_key s p).2.private_keys id = none ∧
    alFind? (OneTimeKeys.remove_secret_key s p).2.unpublished_public_keys id =
      none ∧
    OneTimeKeys.remove_secret_key (OneTimeKeys.remove_secret_key s p).2 p =
      (none, (OneTimeKeys.remove_secret_key s p).2) := by
  have hstep :
      OneTimeKeys.remove_secret_key s p =
        (alFind? s.private_keys id,
         { s with
           reverse_public_keys := alErase s.reverse_public_keys p
           unpublished_public_keys := alErase s.unpublished_public_keys id
           private_keys := alErase s.private_keys id }) := by
    unfold OneTimeKeys.remove_secret_key
    rw [hfind]
  rw [hstep]
  refine ⟨hkey, ?_, ?_, ?_, ?_⟩
  · exact alFind?_alErase_self hrev
  · exact alFind?_alErase_self hpriv
  · exact alFind?_alErase_self hunpub
  · unfold OneTimeKeys.remove_secret_key
    rw [show alFind? (alErase s.reverse_public_keys p) p = none from
      alFind?_alErase_self hrev]

/-- Witness for C6 at a concrete input: a store holding the single key pair
with KeyId 0. -/
theorem c6_one_shot_consumption_witness :
    (alNodupKeys (⟨1, [(0, ⟨5⟩)], [(0, ⟨5⟩)], [(⟨5⟩, 0)]⟩ :
        OneTimeKeys).reverse_public_keys ∧
     alFind? (⟨1, [(0, ⟨5⟩)], [(0, ⟨5⟩)], [(⟨5⟩, 0)]⟩ :
        OneTimeKeys).reverse_public_keys ⟨5⟩ = some 0) ∧
    (OneTimeKeys.remove_secret_key
        (⟨1, [(0, ⟨5⟩)], [(0, ⟨5⟩)], [(⟨5⟩, 0)]⟩ : OneTimeKeys) ⟨5⟩).1 =
      some ⟨5⟩ :=
  ⟨⟨by decide, by decide⟩,
   (c6_one_shot_consumption ⟨1, [(0, ⟨5⟩)], [(0, ⟨5⟩)], [(⟨5⟩, 0)]⟩ ⟨5⟩ 0 ⟨5⟩
      (by decide) (by decide) (by decide) (by decide) (by decide)).1⟩

/-- C7 (mark_as_published frame effect and idempotence): after
`mark_as_published` the unpublished map is empty, `private_keys`,
`reverse_public_keys` and the `key_id` counter are exactly unchanged, and a
second `mark_as_published` yields the same state as one. -/
theorem c7_mark_as_published_frame (s : OneTimeKeys) :
    (OneTimeKeys.mark_as_published s).unpublished_public_keys = [] ∧
    (OneTimeKeys.mark_as_published s).private_keys = s.private_keys ∧
    (OneTimeKeys.mark_as_published s).reverse_public_keys =
      s.reverse_public_keys ∧
    (OneTimeKeys.mark_as_published s).key_id = s.key_id ∧
    OneTimeKeys.mark_as_published (OneTimeKeys.mark_as_published s) =
      OneTimeKeys.mark_as_published s :=
  ⟨rfl, rfl, rfl, rfl, rfl⟩

/-- C10 (take_secret atomic on failure): when the public key has no entry
in the reverse index, `take_secret` returns nothing and the store — every
field of it — is unchanged. -/
theorem c10_take_secret_atomic_failure (s : OneTimeKeys)
    (p : Curve25519PublicKey)
    (h : alFind? s.reverse_public_keys p = none) :
    OneTimeKeys.remove_secret_key s p = (none, s) := by
  unfold OneTimeKeys.remove_secret_key
  rw [h]

/-- Witness for C10 at a concrete input: the empty store. -/
theorem c10_take_secret_atomic_failure_witness :
    alFind? OneTimeKeys.new.reverse_public_keys ⟨9⟩ = none ∧
    OneTimeKeys.remove_secret_key OneTimeKeys.new ⟨9⟩ =
      (none, OneTimeKeys.new) :=
  ⟨by decide, c10_take_secret_atomic_failure OneTimeKeys.new ⟨9⟩ (by decide)⟩

/-! ### Public-key derivation and reverse-index reconstruction -/

theorem curvePub_inj {k₁ k₂ : Curve25519SecretKey}
    (h : curvePub k₁ = curvePub k₂) : k₁ = k₂ := by
  cases k₁
  cases k₂
  simp only [curvePub, Curve25519PublicKey.mk.injEq] at h
  simp [h]

section InvFold

variable {κ β : Type} [DecidableEq κ]

theorem alFind?_invFold_not_mem {l : List (β × κ)} {init : List (κ × β)}
    {p : κ} (h : ∀ kv ∈ l, kv.2 ≠ p) :
    alFind? (l.foldl (fun m kv => hmInsert m kv.2 kv.1) init) p =
      alFind? init p := by
  induction l generalizing init with
  | nil => rfl
  | cons hd t ih =>
    rw [List.foldl_cons,
      ih fun kv hkv => h kv (List.mem_cons_of_mem _ hkv),
      alFind?_hmInsert_ne _ (Ne.symm (h hd (List.mem_cons_self _ _)))]

theorem alFind?_invFold_mem {l : List (β × κ)} {init : List (κ × β)}
    {k : κ} {v : β} (hnd : (l.map Prod.snd).Nodup) (hm : (v, k) ∈ l) :
    alFind? (l.foldl (fun m kv => hmInsert m kv.2 kv.1) init) k = some v := by
  induction l generalizing init with
  | nil => simp at hm
  | cons hd t ih =>
    simp only [List.map_cons, List.nodup_cons] at hnd
    rw [List.foldl_cons]
    rcases List.mem_cons.mp hm with heq | hmt
    · have hnt : ∀ kv ∈ t, kv.2 ≠ k := by
        intro kv hkv hk
        rw [← heq] at hnd
        exact hnd.1 (List.mem_map.mpr ⟨kv, hkv, hk⟩)
      rw [alFind?_invFold_not_mem hnt, ← heq, alFind?_hmInsert_self]
    · exact ih hnd.2 hmt

end InvFold

/-- Under the invariant, the public keys stored in
`unpublished_public_keys` are pairwise distinct. -/
theorem WF.unpub_values_nodup {s : OneTimeKeys} (h : WF s) :
    (s.unpublished_public_keys.map Prod.snd).Nodup := by
  obtain ⟨hps, hus, hrn, hfwd, hbwd, hsub, hlt⟩ := h
  have hnd : s.unpublished_public_keys.Nodup :=
    List.Nodup.of_map _ (btSorted.nodupKeys hus)
  refine List.Nodup.map_on ?_ hnd
  intro x hx y hy hxy
  obtain ⟨kx, hkx, hckx⟩ :
      ∃ kx, alFind? s.private_keys x.1 = some kx ∧ curvePub kx = x.2 := by
    have := hsub x hx
    cases hfx : alFind? s.private_keys x.1 with
    | none => rw [hfx] at this; simp at this
    | some kx =>
      rw [hfx] at this
      simp only [Option.map_some', Option.some.injEq] at this
      exact ⟨kx, rfl, this⟩
  obtain ⟨ky, hky, hcky⟩ :
      ∃ ky, alFind? s.private_keys y.1 = some ky ∧ curvePub ky = y.2 := by
    have := hsub y hy
    cases hfy : alFind? s.private_keys y.1 with
    | none => rw [hfy] at this; simp at this
    | some ky =>
      rw [hfy] at this
      simp only [Option.map_some', Option.some.injEq] at this
      exact ⟨ky, rfl, this⟩
  have hkk : kx = ky := curvePub_inj (by rw [hckx, hcky, hxy])
  have h1 := hfwd (x.1, kx) (alFind?_some_mem hkx)
  have h2 := hfwd (y.1, ky) (alFind?_some_mem hky)
  rw [hkk] at h1
  rw [h1] at h2
  have hfst : x.1 = y.1 := by
    have := Option.some.inj h2
    exact this
  exact Prod.ext hfst hxy

/-! ### Claim theorems: C2 and C4 (persistence) -/

/-- C2 (persistence narrows resolution to unpublished keys): take a
well-formed store `s` and a key pair `(id, priv)` held in `private_keys`
but absent from `unpublished_public_keys` (i.e. already marked published).
After encoding `s` to a snapshot and decoding it back, the key can no
longer be resolved by its public key — `get_secret_key` returns nothing and
`remove_secret_key` returns nothing and leaves the decoded store unchanged
— even though the private key entry is still present in `private_keys` of
the decoded store. -/
theorem c2_roundtrip_drops_published (s : OneTimeKeys) (id : Nat)
    (priv : Curve25519SecretKey) (hWF : WF s)
    (hpriv : alFind? s.private_keys id = some priv)
    (hpub : alFind? s.unpublished_public_keys id = none) :
    OneTimeKeys.get_secret_key (OneTimeKeys.toPickle s).toKeys
      (curvePub priv) = none ∧
    OneTimeKeys.remove_secret_key (OneTimeKeys.toPickle s).toKeys
      (curvePub priv) = (none, (OneTimeKeys.toPickle s).toKeys) ∧
    alFind? ((OneTimeKeys.toPickle s).toKeys).private_keys id = some priv := by
  obtain ⟨hps, hus, hrn, hfwd, hbwd, hsub, hlt⟩ := hWF
  have hnot : ∀ kv ∈ s.unpublished_public_keys, kv.2 ≠ curvePub priv := by
    intro kv hkv hk
    obtain ⟨k', hk', hck'⟩ :
        ∃ k', alFind? s.private_keys kv.1 = some k' ∧ curvePub k' = kv.2 := by
      have := hsub kv hkv
      cases hf : alFind? s.private_keys kv.1 with
      | none => rw [hf] at this; simp at this
      | some k' =>
        rw [hf] at this
        simp only [Option.map_some', Option.some.injEq] at this
        exact ⟨k', rfl, this⟩
    have hkp : k' = priv := curvePub_inj (by rw [hck', hk])
    have h1 := hfwd (kv.1, k') (alFind?_some_mem hk')
    have h2 := hfwd (id, priv) (alFind?_some_mem hpriv)
    rw [hkp] at h1
    rw [h1] at h2
    have : kv.1 = id := Option.some.inj h2
    exact alFind?_eq_none_iff.mp hpub kv hkv this
  have hrev : alFind?
      ((OneTimeKeys.toPickle s).toKeys).reverse_public_keys
      (curvePub priv) = none := by
    show alFind? (s.unpublished_public_keys.foldl
      (fun m kv => hmInsert m kv.2 kv.1) []) (curvePub priv) = none
    rw [alFind?_invFold_not_mem hnot]
    rfl
  refine ⟨?_, ?_, hpriv⟩
  · unfold OneTimeKeys.get_secret_key
    rw [hrev]
    rfl
  · unfold OneTimeKeys.remove_secret_key
    rw [hrev]

/-- Witness for C2 at a concrete input: a store holding one key pair that
has already been marked as published. -/
theorem c2_roundtrip_drops_published_witness :
    (WF (⟨1, [], [(0, ⟨5⟩)], [(⟨5⟩, 0)]⟩ : OneTimeKeys) ∧
     alFind? (⟨1, [], [(0, ⟨5⟩)], [(⟨5⟩, 0)]⟩ :
        OneTimeKeys).private_keys 0 = some ⟨5⟩) ∧
    OneTimeKeys.get_secret_key
      (OneTimeKeys.toPickle (⟨1, [], [(0, ⟨5⟩)], [(⟨5⟩, 0)]⟩ :
        OneTimeKeys)).toKeys (curvePub ⟨5⟩) = none :=
  ⟨⟨by decide, by decide⟩,
   (c2_roundtrip_drops_published ⟨1, [], [(0, ⟨5⟩)], [(⟨5⟩, 0)]⟩ 0 ⟨5⟩
      (by decide) (by decide) (by decide)).1⟩

/-- C4 (snapshot round-trip for unpublished keys): for a well-formed store,
the decoded snapshot has the same `key_id` counter, and every entry of
`unpublished_public_keys` at encode time can still be resolved after
decode: `get_secret_key` on its public key returns its private key. -/
theorem c4_roundtrip_unpublished (s : OneTimeKeys) (hWF : WF s) :
    ((OneTimeKeys.toPickle s).toKeys).key_id = s.key_id ∧
    ∀ kv ∈ s.unpublished_public_keys,
      ∃ priv, alFind? s.private_keys kv.1 = some priv ∧
        OneTimeKeys.get_secret_key (OneTimeKeys.toPickle s).toKeys kv.2 =
          some priv := by
  refine ⟨rfl, ?_⟩
  intro kv hkv
  obtain ⟨hps, hus, hrn, hfwd, hbwd, hsub, hlt⟩ := hWF
  obtain ⟨priv, hpriv, hcp⟩ :
      ∃ priv, alFind? s.private_keys kv.1 = some priv ∧
        curvePub priv = kv.2 := by
    have := hsub kv hkv
    cases hf : alFind? s.private_keys kv.1 with
    | none => rw [hf] at this; simp at this
    | some k' =>
      rw [hf] at this
      simp only [Option.map_some', Option.some.injEq] at this
      exact ⟨k', rfl, this⟩
  refine ⟨priv, hpriv, ?_⟩
  have hvals : (s.unpublished_public_keys.map Prod.snd).Nodup :=
    WF.unpub_values_nodup ⟨hps, hus, hrn, hfwd, hbwd, hsub, hlt⟩
  have hrev : alFind?
      ((OneTimeKeys.toPickle s).toKeys).reverse_public_keys kv.2 =
      some kv.1 := by
    show alFind? (s.unpublished_public_keys.foldl
      (fun m kv => hmInsert m kv.2 kv.1) []) kv.2 = some kv.1
    exact alFind?_invFold_mem hvals hkv
  unfold OneTimeKeys.get_secret_key
  rw [hrev]
  exact hpriv

/-- Witness for C4 at a concrete input: a store holding one unpublished key
pair. -/
theorem c4_roundtrip_unpublished_witness :
    WF (⟨1, [(0, ⟨5⟩)], [(0, ⟨5⟩)], [(⟨5⟩, 0)]⟩ : OneTimeKeys) ∧
    ((OneTimeKeys.toPickle (⟨1, [(0, ⟨5⟩)], [(0, ⟨5⟩)], [(⟨5⟩, 0)]⟩ :
        OneTimeKeys)).toKeys).key_id = 1 :=
  ⟨by decide,
   (c4_roundtrip_unpublished ⟨1, [(0, ⟨5⟩)], [(0, ⟨5⟩)], [(⟨5⟩, 0)]⟩
      (by decide)).1⟩

/-! ### More association-list helpers -/

section MoreListLemmas

variable {κ β : Type} [DecidableEq κ]

theorem alFind?_cons_self {hd : κ × β} {t : List (κ × β)} :
    alFind? (hd :: t) hd.1 = some hd.2 := by
  obtain ⟨a, b⟩ := hd
  rw [alFind?, if_pos rfl]

theorem alFind?_cons_of_ne {hd : κ × β} {t : List (κ × β)} {k : κ}
    (h : hd.1 ≠ k) : alFind? (hd :: t) k = alFind? t k := by
  obtain ⟨a, b⟩ := hd
  rw [alFind?, if_neg h]

theorem alFind?_append_right {l₁ l₂ : List (κ × β)} {k : κ}
    (h : ∀ kv ∈ l₁, kv.1 ≠ k) : alFind? (l₁ ++ l₂) k = alFind? l₂ k := by
  induction l₁ with
  | nil => rfl
  | cons hd t ih =>
    rw [List.cons_append, alFind?_cons_of_ne (h hd (List.mem_cons_self _ _)),
      ih fun kv hkv => h kv (List.mem_cons_of_mem _ hkv)]

theorem alFind?_append_left {l₁ l₂ : List (κ × β)} {k : κ} {v : β}
    (h : alFind? l₁ k = some v) : alFind? (l₁ ++ l₂) k = some v := by
  induction l₁ with
  | nil => simp [alFind?] at h
  | cons hd t ih =>
    obtain ⟨a, b⟩ := hd
    by_cases hk : a = k
    · rw [alFind?, if_pos hk] at h
      rw [List.cons_append, alFind?, if_pos hk]
      exact h
    · rw [alFind?, if_neg hk] at h
      rw [List.cons_append, alFind?, if_neg hk]
      exact ih h

theorem btSorted_append_last {β : Type} {l : List (Nat × β)} {id : Nat}
    (v : β) (h : btSorted l) (hlt : ∀ kv ∈ l, kv.1 < id) :
    btSorted (l ++ [(id, v)]) := by
  unfold btSorted
  rw [List.pairwise_append]
  refine ⟨h, List.pairwise_singleton _ _, ?_⟩
  intro a ha b hb
  rcases List.mem_singleton.mp hb with rfl
  exact hlt a ha

theorem btSorted_drop {β : Type} {l : List (Nat × β)} (n : Nat)
    (h : btSorted l) : btSorted (l.drop n) :=
  List.Pairwise.sublist (List.drop_sublist n l) h

end MoreListLemmas

namespace OneTimeKeys

/-- Shape of `private_keys` after one generation step: evict the head entry
when full, then append the freshly generated key at the end (its id exceeds
every held id). -/
theorem genStep_private_shape {s : OneTimeKeys} {k : Curve25519SecretKey}
    (hlt : ∀ kv ∈ s.private_keys, kv.1 < s.key_id) :
    (genStep s k).private_keys =
      (if MAX_ONE_TIME_KEYS ≤ s.private_keys.length then
        s.private_keys.drop 1
      else s.private_keys) ++ [(s.key_id, k)] := by
  rw [genStep_private]
  rcases Nat.lt_or_ge s.private_keys.length MAX_ONE_TIME_KEYS with hsmall | hge
  · have hc : ¬ MAX_ONE_TIME_KEYS ≤ s.private_keys.length := by omega
    rw [evictIfFull_eq_of_lt hsmall, if_neg hc, btInsert_append_last _ hlt]
  · match hl : s.private_keys with
    | [] =>
      rw [hl] at hge
      have hpos := MAX_pos
      simp at hge
      omega
    | hd :: t =>
      rw [evictIfFull_eq_of_full hl hge]
      dsimp only
      have hge' : MAX_ONE_TIME_KEYS ≤ (hd :: t).length := by
        rw [← hl]
        exact hge
      rw [if_pos hge', List.drop_one, List.tail_cons,
        btInsert_append_last _
          fun kv hkv => hlt kv (hl ▸ List.mem_cons_of_mem _ hkv)]

end OneTimeKeys

/-- C5 (oldest-first eviction): for a well-formed store already holding
exactly `MAX_ONE_TIME_KEYS` private keys, generating one more (fresh) key
removes exactly the entry with the smallest KeyId `m` — from
`private_keys`, from `reverse_public_keys` (via its public key `km`) and
from `unpublished_public_keys` if present — leaves every other entry of the
three maps in place, and the new smallest KeyId is the second-smallest
previously held (the head of `private_keys.drop 1`). -/
theorem c5_oldest_first_eviction (s : OneTimeKeys) (k : Curve25519SecretKey)
    (m : Nat) (km : Curve25519SecretKey) (hWF : WF s)
    (hlen : s.private_keys.length = OneTimeKeys.MAX_ONE_TIME_KEYS)
    (hm : btMinKey? s.private_keys = some m)
    (hkm : alFind? s.private_keys m = some km)
    (hfresh : alFind? s.reverse_public_keys (curvePub k) = none) :
    (∀ kv ∈ s.private_keys, m ≤ kv.1) ∧
    alFind? (OneTimeKeys.generate s [k]).private_keys m = none ∧
    (∀ kv ∈ s.private_keys, kv.1 ≠ m →
      alFind? (OneTimeKeys.generate s [k]).private_keys kv.1 = some kv.2) ∧
    alFind? (OneTimeKeys.generate s [k]).reverse_public_keys (curvePub km) =
      none ∧
    (∀ pv ∈ s.reverse_public_keys, pv.2 ≠ m →
      alFind? (OneTimeKeys.generate s [k]).reverse_public_keys pv.1 =
        some pv.2) ∧
    alFind? (OneTimeKeys.generate s [k]).unpublished_public_keys m = none ∧
    (∀ kv ∈ s.unpublished_public_keys, kv.1 ≠ m →
      alFind? (OneTimeKeys.generate s [k]).unpublished_public_keys kv.1 =
        some kv.2) ∧
    btMinKey? (OneTimeKeys.generate s [k]).private_keys =
      btMinKey? (s.private_keys.drop 1) := by
  obtain ⟨hps, hus, hrn, hfwd, hbwd, hsub, hid⟩ := hWF
  have hgen : OneTimeKeys.generate s [k] = OneTimeKeys.genStep s k := rfl
  have hge : OneTimeKeys.MAX_ONE_TIME_KEYS ≤ s.private_keys.length := by omega
  obtain ⟨hd, t, hl⟩ :
      ∃ hd t, s.private_keys = hd :: t := by
    match hl : s.private_keys with
    | [] =>
      rw [hl] at hlen
      have hpos := OneTimeKeys.MAX_pos
      simp at hlen
      omega
    | hd :: t => exact ⟨hd, t, rfl⟩
  have hmhd : m = hd.1 := by
    rw [hl] at hm
    simpa [btMinKey?] using hm.symm
  have hkmhd : km = hd.2 := by
    rw [hl, hmhd] at hkm
    rw [alFind?_cons_self] at hkm
    exact (Option.some.inj hkm).symm
  have hhdmem : hd ∈ s.private_keys := hl ▸ List.mem_cons_self _ _
  have hmlt : m < s.key_id := hmhd ▸ hid hd hhdmem
  have htmem : ∀ kv ∈ t, kv ∈ s.private_keys :=
    fun kv hkv => hl ▸ List.mem_cons_of_mem _ hkv
  have htkeys : ∀ kv ∈ t, m < kv.1 := by
    intro kv hkv
    have := hl ▸ hps
    unfold btSorted at this
    rw [List.pairwise_cons] at this
    exact hmhd ▸ this.1 kv hkv
  have hevict :
      OneTimeKeys.evictIfFull s =
        { s with
          private_keys := t
          reverse_public_keys :=
            alErase s.reverse_public_keys (curvePub hd.2)
          unpublished_public_keys :=
            alErase s.unpublished_public_keys hd.1 } :=
    OneTimeKeys.evictIfFull_eq_of_full hl hge
  have hpriv' : (OneTimeKeys.genStep s k).private_keys =
      t ++ [(s.key_id, k)] := by
    rw [OneTimeKeys.genStep_private, hevict]
    exact btInsert_append_last _ fun kv hkv => hid kv (htmem kv hkv)
  have hrev' : (OneTimeKeys.genStep s k).reverse_public_keys =
      hmInsert (alErase s.reverse_public_keys (curvePub hd.2)) (curvePub k)
        s.key_id := by
    rw [OneTimeKeys.genStep_reverse, hevict]
  have hunpub' : (OneTimeKeys.genStep s k).unpublished_public_keys =
      btInsert (alErase s.unpublished_public_keys hd.1) s.key_id
        (curvePub k) := by
    rw [OneTimeKeys.genStep_unpub, hevict]
  have hpubne : curvePub k ≠ curvePub hd.2 := by
    intro hcontra
    have := hfwd hd hhdmem
    rw [← hcontra] at this
    rw [hfresh] at this
    exact Option.noConfusion this
  refine ⟨btSorted_minKey hps hm, ?_, ?_, ?_, ?_, ?_, ?_, ?_⟩
  · rw [hgen, hpriv']
    rw [alFind?_append_right fun kv hkv => by have := htkeys kv hkv; omega]
    rw [alFind?_cons_of_ne (by show s.key_id ≠ m; omega)]
    rfl
  · intro kv hkv hne
    have hkvt : kv ∈ t := by
      rw [hl] at hkv
      rcases List.mem_cons.mp hkv with heq | h'
      · subst heq
        exact absurd hmhd.symm hne
      · exact h'
    rw [hgen, hpriv']
    have hklt : kv.1 < s.key_id := hid kv hkv
    have hfind : alFind? t kv.1 = some kv.2 :=
      alFind?_of_mem
        (btSorted.nodupKeys (btSorted_of_sublist
          (by rw [hl]; exact List.sublist_cons_self _ _) hps)) hkvt
    exact alFind?_append_left hfind
  · rw [hgen, hrev', hkmhd]
    rw [alFind?_hmInsert_ne _ (Ne.symm hpubne)]
    exact alFind?_alErase_self hrn
  · intro pv hpv hne
    have hne1 : pv.1 ≠ curvePub hd.2 := by
      intro hcontra
      have h1 := alFind?_of_mem hrn hpv
      have h2 := hfwd hd hhdmem
      rw [← hcontra] at h2
      rw [h1] at h2
      exact hne (hmhd.symm ▸ Option.some.inj h2)
    have hne2 : pv.1 ≠ curvePub k := by
      intro hcontra
      have h1 := alFind?_of_mem hrn hpv
      rw [hcontra, hfresh] at h1
      exact Option.noConfusion h1
    rw [hgen, hrev', alFind?_hmInsert_ne _ hne2, alFind?_alErase_ne hne1]
    exact alFind?_of_mem hrn hpv
  · rw [hgen, hunpub']
    rw [alFind?_btInsert_ne _ (by show m ≠ s.key_id; omega)]
    rw [hmhd]
    exact alFind?_alErase_self (btSorted.nodupKeys hus)
  · intro kv hkv hne
    have hkvlt : kv.1 < s.key_id := by
      have := hsub kv hkv
      cases hf : alFind? s.private_keys kv.1 with
      | none => rw [hf] at this; simp at this
      | some kp => exact hid (kv.1, kp) (alFind?_some_mem hf)
    rw [hgen, hunpub']
    rw [alFind?_btInsert_ne _ (by omega)]
    rw [alFind?_alErase_ne (hmhd ▸ hne)]
    exact alFind?_of_mem (btSorted.nodupKeys hus) hkv
  · rw [hgen, hpriv', hl, List.drop_one, List.tail_cons]
    match t with
    | [] =>
      rw [hl] at hlen
      simp at hlen
      have : OneTimeKeys.MAX_ONE_TIME_KEYS = 1 := by omega
      rw [OneTimeKeys.MAX_ONE_TIME_KEYS, PUBLIC_MAX_ONE_TIME_KEYS] at this
      omega
    | t0 :: t' => rfl

/-- A concrete store at full capacity: key pairs with ids 0 … 99, all
unpublished. -/
def sampleFullStore : OneTimeKeys :=
  { key_id := 100
    unpublished_public_keys := (List.range 100).map fun i => (i, ⟨i⟩)
    private_keys := (List.range 100).map fun i => (i, ⟨i⟩)
    reverse_public_keys := (List.range 100).map fun i => (⟨i⟩, i) }

set_option maxRecDepth 8000 in
/-- Witness for C5 at a concrete input: the full store above, one more
generated key; the entry with KeyId 0 is gone afterwards. -/
theorem c5_oldest_first_eviction_witness :
    (WF sampleFullStore ∧
     sampleFullStore.private_keys.length = OneTimeKeys.MAX_ONE_TIME_KEYS ∧
     btMinKey? sampleFullStore.private_keys = some 0) ∧
    alFind? (OneTimeKeys.generate sampleFullStore [⟨100⟩]).private_keys 0 =
      none :=
  ⟨⟨by decide, by decide, by decide⟩,
   (c5_oldest_first_eviction sampleFullStore ⟨100⟩ 0 ⟨0⟩ (by decide)
      (by decide) (by decide) (by decide) (by decide)).2.1⟩

/-! ### Consecutive id assignment (C8) -/

/-- The entries generated by one `generate` call: secret keys of the rng
sample paired with consecutive ids starting at `a`. -/
def zipIds : Nat → List Curve25519SecretKey → List (Nat × Curve25519SecretKey)
  | _, [] => []
  | a, k :: t => (a, k) :: zipIds (a + 1) t

theorem alFind?_zipIds {l : List Curve25519SecretKey} {a i : Nat}
    (h : i < l.length) :
    alFind? (zipIds a l) (a + i) = some (l.get ⟨i, h⟩) := by
  induction l generalizing a i with
  | nil => simp at h
  | cons k t ih =>
    cases i with
    | zero =>
      rw [zipIds]
      simp [alFind?]
    | succ n =>
      have hn : n < t.length := by
        simp at h
        omega
      have hne : a ≠ a + (n + 1) := by omega
      rw [zipIds, alFind?_cons_of_ne hne,
        show a + (n + 1) = (a + 1) + n by omega, ih hn]
      rfl

theorem mem_zipIds_bound {l : List Curve25519SecretKey} {a : Nat} :
    ∀ kv ∈ zipIds a l, a ≤ kv.1 ∧ kv.1 < a + l.length := by
  induction l generalizing a with
  | nil => simp [zipIds]
  | cons k t ih =>
    intro kv hkv
    rw [zipIds] at hkv
    rcases List.mem_cons.mp hkv with heq | h'
    · subst heq
      simp
    · have := ih kv h'
      simp only [List.length_cons]
      omega

namespace OneTimeKeys

/-- Shape of `private_keys` after a whole `generate` call on a well-formed
store, provided the batch fits in the capacity: some number `e` of oldest
entries is evicted and the fresh entries are appended with consecutive ids
starting at the old `key_id`. -/
theorem generate_shape (fresh : List Curve25519SecretKey) :
    ∀ s : OneTimeKeys, btSorted s.private_keys →
    (∀ kv ∈ s.private_keys, kv.1 < s.key_id) →
    fresh.length ≤ MAX_ONE_TIME_KEYS →
    ∃ e, e ≤ s.private_keys.length ∧
      (generate s fresh).private_keys =
        s.private_keys.drop e ++ zipIds s.key_id fresh ∧
      (e = 0 ∨
        MAX_ONE_TIME_KEYS ≤ s.private_keys.length - e + fresh.length) := by
  induction fresh with
  | nil =>
    intro s _ _ _
    exact ⟨0, Nat.zero_le _, by simp [generate_nil, zipIds], Or.inl rfl⟩
  | cons k rest ih =>
    intro s hsort hlt hlen
    have hshape := genStep_private_shape (s := s) (k := k) hlt
    have hkeyid : (genStep s k).key_id = s.key_id + 1 := genStep_key_id s k
    -- the evicted-or-not portion of the old map
    rcases Nat.lt_or_ge s.private_keys.length MAX_ONE_TIME_KEYS with hsm | hfull
    · -- no eviction at this step
      have hc : ¬ MAX_ONE_TIME_KEYS ≤ s.private_keys.length := by omega
      rw [if_neg hc] at hshape
      have hsort₁ : btSorted (genStep s k).private_keys := by
        rw [hshape]
        exact btSorted_append_last _ hsort hlt
      have hlt₁ : ∀ kv ∈ (genStep s k).private_keys, kv.1 < (genStep s k).key_id := by
        rw [hshape, hkeyid]
        intro kv hkv
        rcases List.mem_append.mp hkv with h' | h'
        · have := hlt kv h'
          omega
        · rcases List.mem_singleton.mp h' with rfl
          omega
      obtain ⟨e', he', hsh', hd'⟩ :=
        ih (genStep s k) hsort₁ hlt₁
          (by simp at hlen ⊢; omega)
      rw [hshape] at he' hsh'
      simp only [List.length_append, List.length_cons, List.length_nil] at he'
      have he'le : e' ≤ s.private_keys.length := by
        rcases hd' with h0 | hbig
        · omega
        · by_contra hgt
          have : e' = s.private_keys.length + 1 := by omega
          rw [hshape] at hbig
          simp only [List.length_append, List.length_cons,
            List.length_nil] at hbig
          simp only [List.length_cons] at hlen
          omega
      refine ⟨e', he'le, ?_, ?_⟩
      · rw [generate_cons, hsh', hkeyid,
          List.drop_append_of_le_length he'le]
        rw [List.append_assoc, List.singleton_append]
        rfl
      · rcases hd' with h0 | hbig
        · exact Or.inl h0
        · rw [hshape] at hbig
          simp only [List.length_append, List.length_cons,
            List.length_nil, List.length_cons] at hbig ⊢
          right
          omega
    · -- one eviction at this step
      rw [if_pos hfull] at hshape
      have hnil : s.private_keys ≠ [] := by
        intro hnil
        rw [hnil] at hfull
        have := MAX_pos
        simp at hfull
        omega
      have hdropsub : ∀ kv ∈ s.private_keys.drop 1, kv ∈ s.private_keys :=
        fun kv hkv => List.mem_of_mem_drop hkv
      have hsort₁ : btSorted (genStep s k).private_keys := by
        rw [hshape]
        exact btSorted_append_last _ (btSorted_drop 1 hsort)
          fun kv hkv => hlt kv (hdropsub kv hkv)
      have hlt₁ : ∀ kv ∈ (genStep s k).private_keys, kv.1 < (genStep s k).key_id := by
        rw [hshape, hkeyid]
        intro kv hkv
        rcases List.mem_append.mp hkv with h' | h'
        · have := hlt kv (hdropsub kv h')
          omega
        · rcases List.mem_singleton.mp h' with rfl
          omega
      obtain ⟨e', he', hsh', hd'⟩ :=
        ih (genStep s k) hsort₁ hlt₁
          (by simp at hlen ⊢; omega)
      rw [hshape] at he' hsh'
      have hlendrop : (s.private_keys.drop 1).length =
          s.private_keys.length - 1 := List.length_drop 1 s.private_keys
      simp only [List.length_append, List.length_cons, List.length_nil,
        hlendrop] at he'
      have hlenpos : 1 ≤ s.private_keys.length := by
        cases hcase : s.private_keys with
        | nil => exact absurd hcase hnil
        | cons a b => simp [hcase]
      have he'le : e' ≤ s.private_keys.length - 1 := by
        rcases hd' with h0 | hbig
        · omega
        · by_contra hgt
          have : e' = s.private_keys.length - 1 + 1 := by omega
          rw [hshape] at hbig
          simp only [List.length_append, List.length_cons,
            List.length_nil, hlendrop] at hbig
          simp only [List.length_cons] at hlen
          omega
      refine ⟨1 + e', by omega, ?_, ?_⟩
      · rw [generate_cons, hsh', hkeyid,
          List.drop_append_of_le_length (by rw [hlendrop]; exact he'le),
          List.drop_drop]
        rw [List.append_assoc, List.singleton_append]
        rfl
      · right
        simp only [List.length_cons]
        rcases hd' with h0 | hbig
        · omega
        · rw [hshape] at hbig
          simp only [List.length_append, List.length_cons,
            List.length_nil, hlendrop] at hbig
          omega

end OneTimeKeys

theorem OneTimeKeys.eq_of_fields {a b : OneTimeKeys} (h1 : a.key_id = b.key_id)
    (h2 : a.unpublished_public_keys = b.unpublished_public_keys)
    (h3 : a.private_keys = b.private_keys)
    (h4 : a.reverse_public_keys = b.reverse_public_keys) : a = b := by
  cases a
  cases b
  simp_all

/-- One generation step as a record literal: the insertion under the
current counter value, with the counter bumped. -/
theorem OneTimeKeys.genStep_eq (s : OneTimeKeys) (key : Curve25519SecretKey) :
    OneTimeKeys.genStep s key =
      { OneTimeKeys.insert_secret_key s s.key_id key false with
        key_id := s.key_id + 1 } :=
  OneTimeKeys.eq_of_fields (OneTimeKeys.genStep_key_id s key) rfl rfl rfl

/-- The capacity check and eviction read and write only the three maps:
they commute with overwriting the `key_id` counter. -/
theorem OneTimeKeys.evictIfFull_set_key_id (t : OneTimeKeys) (x : Nat) :
    OneTimeKeys.evictIfFull { t with key_id := x } =
      { OneTimeKeys.evictIfFull t with key_id := x } := by
  rcases Nat.lt_or_ge t.private_keys.length OneTimeKeys.MAX_ONE_TIME_KEYS with
    hsm | hge
  · rw [OneTimeKeys.evictIfFull_eq_of_lt (s := { t with key_id := x }) hsm,
      OneTimeKeys.evictIfFull_eq_of_lt hsm]
  · obtain ⟨hd, t', hl⟩ : ∃ hd t', t.private_keys = hd :: t' := by
      match hl2 : t.private_keys with
      | [] =>
        rw [hl2] at hge
        have hpos := OneTimeKeys.MAX_pos
        simp at hge
        omega
      | hd :: t' => exact ⟨hd, t', rfl⟩
    rw [OneTimeKeys.evictIfFull_eq_of_full (s := { t with key_id := x })
        hl hge,
      OneTimeKeys.evictIfFull_eq_of_full hl hge]

/-- `insert_secret_key` neither reads nor writes the `key_id` counter: it
commutes with overwriting it. -/
theorem OneTimeKeys.insert_secret_key_set_key_id (t : OneTimeKeys)
    (x id : Nat) (key : Curve25519SecretKey) (published : Bool) :
    OneTimeKeys.insert_secret_key { t with key_id := x } id key published =
      { OneTimeKeys.insert_secret_key t id key published with key_id := x } := by
  unfold OneTimeKeys.insert_secret_key
  rw [OneTimeKeys.evictIfFull_set_key_id]
  cases published <;> rfl

theorem OneTimeKeys.foldl_insert_set_key_id
    (l : List (Nat × Curve25519SecretKey)) :
    ∀ (t : OneTimeKeys) (x : Nat),
    l.foldl (fun u kv => OneTimeKeys.insert_secret_key u kv.1 kv.2 false)
        { t with key_id := x } =
      { l.foldl (fun u kv => OneTimeKeys.insert_secret_key u kv.1 kv.2 false) t
        with key_id := x } := by
  induction l with
  | nil =>
    intro t x
    rfl
  | cons kv rest ih =>
    intro t x
    rw [List.foldl_cons, List.foldl_cons,
      OneTimeKeys.insert_secret_key_set_key_id, ih]

/-- The loop of `generate` in closed form, for every batch size: it inserts
exactly the entries `(key_id + i, fresh_i)` — the sampled keys paired with
consecutive ids drawn from the counter — and bumps the counter by the batch
size. -/
theorem OneTimeKeys.generate_eq_insert_fold (fresh : List Curve25519SecretKey) :
    ∀ s : OneTimeKeys,
    OneTimeKeys.generate s fresh =
      { (zipIds s.key_id fresh).foldl
          (fun u kv => OneTimeKeys.insert_secret_key u kv.1 kv.2 false) s
        with key_id := s.key_id + fresh.length } := by
  induction fresh with
  | nil =>
    intro s
    rfl
  | cons k rest ih =>
    intro s
    rw [OneTimeKeys.generate_cons, ih (OneTimeKeys.genStep s k),
      OneTimeKeys.genStep_eq]
    rw [show ({ OneTimeKeys.insert_secret_key s s.key_id k false with
        key_id := s.key_id + 1 } : OneTimeKeys).key_id = s.key_id + 1 from rfl]
    rw [OneTimeKeys.foldl_insert_set_key_id]
    refine OneTimeKeys.eq_of_fields ?_ rfl rfl rfl
    simp only [List.length_cons]
    omega

/-- The consecutive ids paired by `zipIds` are strictly increasing. -/
theorem zipIds_sorted (a : Nat) (l : List Curve25519SecretKey) :
    btSorted (zipIds a l) := by
  induction l generalizing a with
  | nil => exact List.Pairwise.nil
  | cons k t ih =>
    rw [zipIds]
    unfold btSorted
    rw [List.pairwise_cons]
    refine ⟨fun kv hkv => ?_, ih (a + 1)⟩
    have := mem_zipIds_bound kv hkv
    dsimp only
    omega

/-- C8 (generate id assignment): for every store state whose held ids are
below the counter and every batch (any size n ≥ 0, no capacity bound):
`generate` is exactly the fold of the insertion path over the entries
`(key_id + i, fresh_i)` with the counter bumped by n — the n new keys are
assigned the consecutive KeyIds `key_id, …, key_id + n - 1`; those ids are
strictly increasing, each is looked up to the matching sampled key, and
none of them was ever assigned before (no reuse); `next_key_id` ends at its
old value plus n; `generate` of the empty batch leaves the store unchanged;
`generate` is a total function, so it always succeeds.  In addition, when
the batch fits the capacity, each new key is still held under its assigned
id after the call (an oversized batch evicts its own oldest keys again, so
retention there is limited by the capacity, not by the assignment). -/
theorem c8_generate_id_assignment (s : OneTimeKeys)
    (fresh : List Curve25519SecretKey)
    (hsort : btSorted s.private_keys)
    (hlt : ∀ kv ∈ s.private_keys, kv.1 < s.key_id) :
    OneTimeKeys.generate s fresh =
      { (zipIds s.key_id fresh).foldl
          (fun u kv => OneTimeKeys.insert_secret_key u kv.1 kv.2 false) s
        with key_id := s.key_id + fresh.length } ∧
    btSorted (zipIds s.key_id fresh) ∧
    (∀ i (h : i < fresh.length),
      alFind? (zipIds s.key_id fresh) (s.key_id + i) =
        some (fresh.get ⟨i, h⟩)) ∧
    (OneTimeKeys.generate s fresh).key_id = s.key_id + fresh.length ∧
    OneTimeKeys.generate s [] = s ∧
    (∀ i, alFind? s.private_keys (s.key_id + i) = none) ∧
    (fresh.length ≤ OneTimeKeys.MAX_ONE_TIME_KEYS → ∀ i
      (h : i < fresh.length),
      alFind? (OneTimeKeys.generate s fresh).private_keys (s.key_id + i) =
        some (fresh.get ⟨i, h⟩)) := by
  refine ⟨OneTimeKeys.generate_eq_insert_fold fresh s,
    zipIds_sorted s.key_id fresh,
    fun i h => alFind?_zipIds h,
    OneTimeKeys.generate_key_id s fresh, rfl, ?_, ?_⟩
  · intro i
    exact alFind?_eq_none_iff.mpr fun kv hkv => by
      have := hlt kv hkv
      omega
  · intro hcap i h
    obtain ⟨e, hele, hshape, _⟩ :=
      OneTimeKeys.generate_shape fresh s hsort hlt hcap
    rw [hshape]
    rw [alFind?_append_right fun kv hkv => by
      have := hlt kv (List.mem_of_mem_drop hkv)
      omega]
    exact alFind?_zipIds h

/-- Witness for C8 at a concrete input: the empty store and a batch of two
keys. -/
theorem c8_generate_id_assignment_witness :
    (btSorted OneTimeKeys.new.private_keys ∧
     (∀ kv ∈ OneTimeKeys.new.private_keys, kv.1 < OneTimeKeys.new.key_id)) ∧
    (OneTimeKeys.generate OneTimeKeys.new [⟨3⟩, ⟨4⟩]).key_id =
      OneTimeKeys.new.key_id + 2 :=
  ⟨⟨by decide, by decide⟩,
   (c8_generate_id_assignment OneTimeKeys.new [⟨3⟩, ⟨4⟩] (by decide)
      (by decide)).2.2.2.1⟩


/-! ### Preservation of the store invariant (C1) -/

theorem map_curvePub_eq_some {o : Option Curve25519SecretKey}
    {p : Curve25519PublicKey} (h : o.map curvePub = some p) :
    ∃ k, o = some k ∧ curvePub k = p := by
  cases o with
  | none => simp at h
  | some k =>
    refine ⟨k, rfl, ?_⟩
    simpa using h

namespace OneTimeKeys

theorem WF_evictIfFull {s : OneTimeKeys} (h : WF s) : WF (evictIfFull s) := by
  obtain ⟨hps, hus, hrn, hfwd, hbwd, hsub, hid⟩ := h
  rcases Nat.lt_or_ge s.private_keys.length MAX_ONE_TIME_KEYS with hsm | hge
  · rw [evictIfFull_eq_of_lt hsm]
    exact ⟨hps, hus, hrn, hfwd, hbwd, hsub, hid⟩
  · match hl : s.private_keys with
    | [] =>
      rw [hl] at hge
      have hpos := MAX_pos
      simp at hge
      omega
    | hd :: t =>
      rw [evictIfFull_eq_of_full hl hge]
      have hsorted : btSorted (hd :: t) := hl ▸ hps
      have htail : ∀ kv ∈ t, hd.1 < kv.1 := by
        have := hsorted
        unfold btSorted at this
        rw [List.pairwise_cons] at this
        exact this.1
      have hhds : hd ∈ s.private_keys := hl ▸ List.mem_cons_self _ _
      refine ⟨?_, ?_, ?_, ?_, ?_, ?_, ?_⟩
      · exact btSorted_of_sublist (List.sublist_cons_self _ _) hsorted
      · exact btSorted_of_sublist (alErase_sublist _ _) hus
      · exact alNodupKeys_alErase hrn
      · intro kv hkv
        have hkvs : kv ∈ s.private_keys := hl ▸ List.mem_cons_of_mem _ hkv
        have hne : curvePub kv.2 ≠ curvePub hd.2 := by
          intro hc
          have h1 := hfwd kv hkvs
          have h2 := hfwd hd hhds
          rw [hc] at h1
          rw [h1] at h2
          have := htail kv hkv
          have := Option.some.inj h2
          omega
        rw [alFind?_alErase_ne hne]
        exact hfwd kv hkvs
      · intro pv hpv
        have hpvs : pv ∈ s.reverse_public_keys := mem_alErase_subset hpv
        have hpne : pv.1 ≠ curvePub hd.2 := mem_alErase_ne_key hrn hpv
        obtain ⟨kp, hkp, hckp⟩ := map_curvePub_eq_some (hbwd pv hpvs)
        have hne2 : pv.2 ≠ hd.1 := by
          intro hc
          rw [hc, hl] at hkp
          rw [alFind?_cons_self] at hkp
          exact hpne (by rw [← hckp, Option.some.inj hkp])
        rw [hl] at hkp
        rw [alFind?_cons_of_ne fun hx => hne2 hx.symm] at hkp
        rw [hkp]
        simp [hckp]
      · intro kv hkv
        have hkvu : kv ∈ s.unpublished_public_keys := mem_alErase_subset hkv
        have hne : kv.1 ≠ hd.1 :=
          mem_alErase_ne_key (btSorted.nodupKeys hus) hkv
        have := hsub kv hkvu
        rw [hl, alFind?_cons_of_ne fun hx => hne hx.symm] at this
        exact this
      · exact fun kv hkv => hid kv (hl ▸ List.mem_cons_of_mem _ hkv)

theorem evictIfFull_reverse_none {s : OneTimeKeys} {p : Curve25519PublicKey}
    (h : alFind? s.reverse_public_keys p = none) :
    alFind? (evictIfFull s).reverse_public_keys p = none := by
  rcases Nat.lt_or_ge s.private_keys.length MAX_ONE_TIME_KEYS with hsm | hge
  · rw [evictIfFull_eq_of_lt hsm]
    exact h
  · match hl : s.private_keys with
    | [] =>
      rw [hl] at hge
      have hpos := MAX_pos
      simp at hge
      omega
    | hd :: t =>
      rw [evictIfFull_eq_of_full hl hge]
      exact alFind?_alErase_none h

theorem WF_genStep {s : OneTimeKeys} {k : Curve25519SecretKey} (h : WF s)
    (hfresh : alFind? s.reverse_public_keys (curvePub k) = none) :
    WF (genStep s k) := by
  have ht := WF_evictIfFull h
  have hfr : alFind? (evictIfFull s).reverse_public_keys (curvePub k) =
      none := evictIfFull_reverse_none hfresh
  obtain ⟨hps, hus, hrn, hfwd, hbwd, hsub, hid⟩ := ht
  have hkeyid : (evictIfFull s).key_id = s.key_id := evictIfFull_key_id s
  refine ⟨?_, ?_, ?_, ?_, ?_, ?_, ?_⟩
  · rw [genStep_private]
    exact btSorted_btInsert _ hps
  · rw [genStep_unpub]
    exact btSorted_btInsert _ hus
  · rw [genStep_reverse]
    exact alNodupKeys_hmInsert _ hrn
  · rw [genStep_private, genStep_reverse]
    intro kv hkv
    rcases mem_btInsert_elim hkv with heq | hold
    · subst heq
      exact alFind?_hmInsert_self _ _ _
    · have hne : curvePub kv.2 ≠ curvePub k := by
        intro hc
        have := hfwd kv hold
        rw [hc, hfr] at this
        exact Option.noConfusion this
      rw [alFind?_hmInsert_ne _ hne]
      exact hfwd kv hold
  · rw [genStep_private, genStep_reverse]
    intro pv hpv
    rcases mem_hmInsert_elim hpv with heq | hold
    · subst heq
      rw [alFind?_btInsert_self]
      rfl
    · obtain ⟨kp, hkp, hckp⟩ := map_curvePub_eq_some (hbwd pv hold)
      have hne : pv.2 ≠ s.key_id := by
        have := hid (pv.2, kp) (alFind?_some_mem hkp)
        rw [hkeyid] at this
        omega
      rw [alFind?_btInsert_ne _ hne, hkp]
      simp [hckp]
  · rw [genStep_private, genStep_unpub]
    intro kv hkv
    rcases mem_btInsert_elim hkv with heq | hold
    · subst heq
      rw [alFind?_btInsert_self]
      rfl
    · obtain ⟨kp, hkp, hckp⟩ := map_curvePub_eq_some (hsub kv hold)
      have hne : kv.1 ≠ s.key_id := by
        have := hid (kv.1, kp) (alFind?_some_mem hkp)
        rw [hkeyid] at this
        omega
      rw [alFind?_btInsert_ne _ hne, hkp]
      simp [hckp]
  · rw [genStep_private, genStep_key_id]
    intro kv hkv
    rcases mem_btInsert_elim hkv with heq | hold
    · subst heq
      omega
    · have := hid kv hold
      rw [hkeyid] at this
      omega

end OneTimeKeys

theorem FreshKeys_tail {s : OneTimeKeys} {k : Curve25519SecretKey}
    {rest : List Curve25519SecretKey} (h : FreshKeys s (k :: rest)) :
    FreshKeys (OneTimeKeys.genStep s k) rest := by
  obtain ⟨hnd, hnone⟩ := h
  simp only [List.map_cons, List.nodup_cons] at hnd
  refine ⟨hnd.2, ?_⟩
  intro k' hk'
  have hne : curvePub k' ≠ curvePub k := by
    intro hc
    exact hnd.1 (hc ▸ List.mem_map.mpr ⟨k', hk', rfl⟩)
  rw [OneTimeKeys.genStep_reverse, alFind?_hmInsert_ne _ hne]
  exact OneTimeKeys.evictIfFull_reverse_none
    (hnone k' (List.mem_cons_of_mem _ hk'))

theorem WF_generate {s : OneTimeKeys} {fresh : List Curve25519SecretKey}
    (h : WF s) (hf : FreshKeys s fresh) :
    WF (OneTimeKeys.generate s fresh) := by
  induction fresh generalizing s with
  | nil => exact h
  | cons k rest ih =>
    rw [OneTimeKeys.generate_cons]
    exact ih (OneTimeKeys.WF_genStep h (hf.2 k (List.mem_cons_self _ _)))
      (FreshKeys_tail hf)

theorem WF_mark {s : OneTimeKeys} (h : WF s) :
    WF (OneTimeKeys.mark_as_published s) := by
  obtain ⟨hps, hus, hrn, hfwd, hbwd, hsub, hid⟩ := h
  exact ⟨hps, List.Pairwise.nil, hrn, hfwd, hbwd,
    fun kv hkv => absurd hkv (List.not_mem_nil kv), hid⟩

theorem WF_remove {s : OneTimeKeys} {p : Curve25519PublicKey} (h : WF s) :
    WF (OneTimeKeys.remove_secret_key s p).2 := by
  obtain ⟨hps, hus, hrn, hfwd, hbwd, hsub, hid⟩ := h
  cases hf : alFind? s.reverse_public_keys p with
  | none =>
    have hstep : OneTimeKeys.remove_secret_key s p = (none, s) := by
      unfold OneTimeKeys.remove_secret_key
      rw [hf]
    rw [hstep]
    exact ⟨hps, hus, hrn, hfwd, hbwd, hsub, hid⟩
  | some id =>
    have hstep : OneTimeKeys.remove_secret_key s p =
        (alFind? s.private_keys id,
         { s with
           reverse_public_keys := alErase s.reverse_public_keys p
           unpublished_public_keys := alErase s.unpublished_public_keys id
           private_keys := alErase s.private_keys id }) := by
      unfold OneTimeKeys.remove_secret_key
      rw [hf]
    rw [hstep]
    obtain ⟨kp, hkp, hckp⟩ :=
      map_curvePub_eq_some (hbwd (p, id) (alFind?_some_mem hf))
    refine ⟨?_, ?_, ?_, ?_, ?_, ?_, ?_⟩
    · exact btSorted_of_sublist (alErase_sublist _ _) hps
    · exact btSorted_of_sublist (alErase_sublist _ _) hus
    · exact alNodupKeys_alErase hrn
    · intro kv hkv
      have hkvm := mem_alErase_subset hkv
      have hkne : kv.1 ≠ id :=
        mem_alErase_ne_key (btSorted.nodupKeys hps) hkv
      have hne : curvePub kv.2 ≠ p := by
        intro hc
        have := hfwd kv hkvm
        rw [hc, hf] at this
        exact hkne (Option.some.inj this).symm
      rw [alFind?_alErase_ne hne]
      exact hfwd kv hkvm
    · intro pv hpv
      have hpvm := mem_alErase_subset hpv
      have hpne : pv.1 ≠ p := mem_alErase_ne_key hrn hpv
      obtain ⟨kq, hkq, hckq⟩ := map_curvePub_eq_some (hbwd pv hpvm)
      have hne : pv.2 ≠ id := by
        intro hc
        rw [hc, hkp] at hkq
        have hp1 : pv.1 = p := by
          rw [← hckq, ← Option.some.inj hkq]
          exact hckp
        exact hpne hp1
      rw [alFind?_alErase_ne hne, hkq]
      simp [hckq]
    · intro kv hkv
      have hkvm := mem_alErase_subset hkv
      have hkne : kv.1 ≠ id :=
        mem_alErase_ne_key (btSorted.nodupKeys hus) hkv
      obtain ⟨kq, hkq, hckq⟩ := map_curvePub_eq_some (hsub kv hkvm)
      rw [alFind?_alErase_ne hkne, hkq]
      simp [hckq]
    · exact fun kv hkv => hid kv (mem_alErase_subset hkv)

/-- The invariant implies the index-consistency property, in particular the
equality of the sizes of `reverse_public_keys` and `private_keys`. -/
theorem WF.consistent {s : OneTimeKeys} (h : WF s) : Consistent s := by
  obtain ⟨hps, hus, hrn, hfwd, hbwd, hsub, hid⟩ := h
  refine ⟨hfwd, ?_⟩
  have hrevnd : s.reverse_public_keys.Nodup := List.Nodup.of_map _ hrn
  have hprivnd : (s.private_keys.map Prod.fst).Nodup := btSorted.nodupKeys hps
  have hidsnd : (s.reverse_public_keys.map Prod.snd).Nodup := by
    refine List.Nodup.map_on ?_ hrevnd
    intro x hx y hy hxy
    obtain ⟨kx, hkx, hckx⟩ := map_curvePub_eq_some (hbwd x hx)
    obtain ⟨ky, hky, hcky⟩ := map_curvePub_eq_some (hbwd y hy)
    rw [hxy, hky] at hkx
    have h1 : x.1 = y.1 := by
      rw [← hckx, ← hcky, Option.some.inj hkx]
    exact Prod.ext h1 hxy
  have hperm : (s.reverse_public_keys.map Prod.snd).Perm
      (s.private_keys.map Prod.fst) := by
    rw [List.perm_ext_iff_of_nodup hidsnd hprivnd]
    intro a
    constructor
    · intro ha
      obtain ⟨pv, hpv, hpva⟩ := List.mem_map.mp ha
      obtain ⟨kq, hkq, _⟩ := map_curvePub_eq_some (hbwd pv hpv)
      rw [hpva] at hkq
      exact List.mem_map.mpr ⟨(a, kq), alFind?_some_mem hkq, rfl⟩
    · intro ha
      obtain ⟨kv, hkv, hkva⟩ := List.mem_map.mp ha
      have := hfwd kv hkv
      exact List.mem_map.mpr ⟨(curvePub kv.2, kv.1), alFind?_some_mem this,
        hkva⟩
  have hlen := hperm.length_eq
  simpa using hlen

/-! ### Claim C1: index consistency -/

/-- A concrete state reachable using a snapshot round-trip: generate one
key, mark it published, encode, decode. -/
def publishedRoundtripStore : OneTimeKeys :=
  (OneTimeKeys.toPickle
    (OneTimeKeys.mark_as_published
      (OneTimeKeys.generate OneTimeKeys.new [⟨0⟩]))).toKeys

/-- Counterexample to C1 as stated: with snapshot encode/decode among the
allowed operations, a reachable state violates index consistency.  After
generating one key, publishing it and round-tripping through the snapshot,
`private_keys` still holds the key but `reverse_public_keys` is empty, so
the reverse index neither resolves the key's public key nor has as many
entries as `private_keys`. -/
theorem c1_index_consistency_counterexample :
    ReachableFull publishedRoundtripStore ∧
    ¬ Consistent publishedRoundtripStore :=
  ⟨ReachableFull.pickle
     (ReachableFull.mark_as_published
       (ReachableFull.generate [⟨0⟩] ReachableFull.new (by decide))),
   by decide⟩

/-- C1 amended (index consistency): in every state reachable from the
empty store by `generate` (with fresh randomness), `mark_as_published`,
`take_secret` and `lookup_secret` — the mutating core operations, without
snapshot encode/decode round-trips — every entry `(id, priv)` of
`private_keys` is resolved by the reverse index
(`reverse_public_keys[pub(priv)] = id`), and the reverse index has exactly
as many entries as `private_keys`. -/
theorem c1_index_consistency (s : OneTimeKeys) (h : ReachableCore s) :
    Consistent s := by
  have hWF : WF s := by
    induction h with
    | new => decide
    | generate fresh hr hf ih => exact WF_generate ih hf
    | mark_as_published hr ih => exact WF_mark ih
    | remove_secret_key p hr ih => exact WF_remove ih
    | get_secret_key p hr ih => exact ih
  exact hWF.consistent

/-- Witness for the amended C1 at a concrete input: the store reached by
generating one key from the empty store. -/
theorem c1_index_consistency_witness :
    ReachableCore (OneTimeKeys.generate OneTimeKeys.new [⟨0⟩]) ∧
    Consistent (OneTimeKeys.generate OneTimeKeys.new [⟨0⟩]) :=
  ⟨ReachableCore.generate [⟨0⟩] ReachableCore.new (by decide),
   c1_index_consistency _
     (ReachableCore.generate [⟨0⟩] ReachableCore.new (by decide))⟩
